import Mathlib

/-!
Verification development for the Skrepa Chat application (`src/app.py`).

The Python source is shallowly embedded below:
  * `Json` models the values produced by Python's `json.loads`
    (objects are insertion-ordered dicts, numbers keep their literal token);
  * `pVal`/`pMembers`/`pElems` embed the recursive-descent grammar accepted
    by `json.loads` (fuel-indexed; the fuel passed by `parseJsonL` is ample
    for its input, and the functions are only ever used through `parseJsonL`);
  * `extractJsonObject` embeds `_extract_json_object` (app.py:52-71);
  * `normalizeModelOutput` embeds `_normalize_model_output` (app.py:74-89),
    returning `Except Unit _` so that a Python `TypeError` raised while
    iterating a non-iterable `next_choices` value is an explicit error;
  * `triggerAssistantTurn` and the pill/form handlers embed the conversation
    state machine (app.py:214-228 and 321-350);
  * `collectValuesAux`/`missingRequiredLabels`/`renderFormSubmit` embed
    `_render_form` (app.py:147-211), with the values returned by the
    Streamlit widgets supplied as oracle inputs.

Known deliberate approximations (documented at the definitions): Python
`str.strip`/`str.lower` are restricted to their ASCII behaviour, the string
form of float literals is approximated by the literal token, `json.loads`'s
`NaN`/`Infinity` extension and `\uXXXX` surrogate pairs are not modelled.
-/

/-- Value produced by Python's `json.loads`: `null`, booleans, numbers
(kept as their literal token, since the claims never compute with them),
strings, arrays and objects.  Objects are insertion-ordered association
lists with distinct keys, exactly like Python dicts. -/
inductive Json where
  | null : Json
  | bool : Bool → Json
  | num : String → Json
  | str : String → Json
  | arr : List Json → Json
  | obj : List (String × Json) → Json

mutual

def Json.decEq : (a b : Json) → Decidable (a = b)
  | .null, .null => isTrue rfl
  | .bool a, .bool b =>
    if h : a = b then isTrue (by rw [h]) else isFalse (by intro hc; cases hc; exact h rfl)
  | .num a, .num b =>
    if h : a = b then isTrue (by rw [h]) else isFalse (by intro hc; cases hc; exact h rfl)
  | .str a, .str b =>
    if h : a = b then isTrue (by rw [h]) else isFalse (by intro hc; cases hc; exact h rfl)
  | .arr a, .arr b =>
    match Json.decEqList a b with
    | isTrue h => isTrue (by rw [h])
    | isFalse h => isFalse (by intro hc; cases hc; exact h rfl)
  | .obj a, .obj b =>
    match Json.decEqPairs a b with
    | isTrue h => isTrue (by rw [h])
    | isFalse h => isFalse (by intro hc; cases hc; exact h rfl)
  | .null, .bool _ => isFalse (by intro h; exact Json.noConfusion h)
  | .null, .num _ => isFalse (by intro h; exact Json.noConfusion h)
  | .null, .str _ => isFalse (by intro h; exact Json.noConfusion h)
  | .null, .arr _ => isFalse (by intro h; exact Json.noConfusion h)
  | .null, .obj _ => isFalse (by intro h; exact Json.noConfusion h)
  | .bool _, .null => isFalse (by intro h; exact Json.noConfusion h)
  | .bool _, .num _ => isFalse (by intro h; exact Json.noConfusion h)
  | .bool _, .str _ => isFalse (by intro h; exact Json.noConfusion h)
  | .bool _, .arr _ => isFalse (by intro h; exact Json.noConfusion h)
  | .bool _, .obj _ => isFalse (by intro h; exact Json.noConfusion h)
  | .num _, .null => isFalse (by intro h; exact Json.noConfusion h)
  | .num _, .bool _ => isFalse (by intro h; exact Json.noConfusion h)
  | .num _, .str _ => isFalse (by intro h; exact Json.noConfusion h)
  | .num _, .arr _ => isFalse (by intro h; exact Json.noConfusion h)
  | .num _, .obj _ => isFalse (by intro h; exact Json.noConfusion h)
  | .str _, .null => isFalse (by intro h; exact Json.noConfusion h)
  | .str _, .bool _ => isFalse (by intro h; exact Json.noConfusion h)
  | .str _, .num _ => isFalse (by intro h; exact Json.noConfusion h)
  | .str _, .arr _ => isFalse (by intro h; exact Json.noConfusion h)
  | .str _, .obj _ => isFalse (by intro h; exact Json.noConfusion h)
  | .arr _, .null => isFalse (by intro h; exact Json.noConfusion h)
  | .arr _, .bool _ => isFalse (by intro h; exact Json.noConfusion h)
  | .arr _, .num _ => isFalse (by intro h; exact Json.noConfusion h)
  | .arr _, .str _ => isFalse (by intro h; exact Json.noConfusion h)
  | .arr _, .obj _ => isFalse (by intro h; exact Json.noConfusion h)
  | .obj _, .null => isFalse (by intro h; exact Json.noConfusion h)
  | .obj _, .bool _ => isFalse (by intro h; exact Json.noConfusion h)
  | .obj _, .num _ => isFalse (by intro h; exact Json.noConfusion h)
  | .obj _, .str _ => isFalse (by intro h; exact Json.noConfusion h)
  | .obj _, .arr _ => isFalse (by intro h; exact Json.noConfusion h)

def Json.decEqList : (a b : List Json) → Decidable (a = b)
  | [], [] => isTrue rfl
  | x :: xs, y :: ys =>
    match Json.decEq x y, Json.decEqList xs ys with
    | isTrue h1, isTrue h2 => isTrue (by rw [h1, h2])
    | isFalse h1, _ => isFalse (by intro hc; cases hc; exact h1 rfl)
    | _, isFalse h2 => isFalse (by intro hc; cases hc; exact h2 rfl)
  | [], _ :: _ => isFalse (by intro h; exact List.noConfusion h)
  | _ :: _, [] => isFalse (by intro h; exact List.noConfusion h)

def Json.decEqPairs : (a b : List (String × Json)) → Decidable (a = b)
  | [], [] => isTrue rfl
  | (k1, v1) :: xs, (k2, v2) :: ys =>
    if hk : k1 = k2 then
      match Json.decEq v1 v2, Json.decEqPairs xs ys with
      | isTrue h1, isTrue h2 => isTrue (by rw [hk, h1, h2])
      | isFalse h1, _ => isFalse (by intro hc; cases hc; exact h1 rfl)
      | _, isFalse h2 => isFalse (by intro hc; cases hc; exact h2 rfl)
    else isFalse (by intro hc; cases hc; exact hk rfl)
  | [], _ :: _ => isFalse (by intro h; exact List.noConfusion h)
  | _ :: _, [] => isFalse (by intro h; exact List.noConfusion h)

end

instance : DecidableEq Json := Json.decEq

/-- The opening-brace character, written by code point. -/
def lbraceChar : Char := '\x7b'

/-- The closing-brace character, written by code point. -/
def rbraceChar : Char := '\x7d'

/-- Whitespace skipped between JSON tokens by `json.loads`. -/
def jsonWsChar (c : Char) : Bool :=
  (c == ' ') || (c == '\t') || (c == '\n') || (c == '\r')

/-- Whitespace removed by Python's `str.strip()` (ASCII part; the rarely
relevant Unicode space characters are not modelled). -/
def pyWsChar (c : Char) : Bool :=
  (c == ' ') || (c == '\t') || (c == '\n') || (c == '\r') || (c == '\x0b') || (c == '\x0c')

/-- Skip inter-token whitespace. -/
def skipWs (cs : List Char) : List Char := cs.dropWhile jsonWsChar

/-- List-level embedding of Python `str.strip()`. -/
def stripList (cs : List Char) : List Char :=
  ((cs.dropWhile pyWsChar).reverse.dropWhile pyWsChar).reverse

/-- Embedding of Python `str.strip()`. -/
def pyStrip (s : String) : String := String.mk (stripList s.toList)

/-- Value of a hexadecimal digit, used for `\uXXXX` string escapes. -/
def hexDigitVal (c : Char) : Option Nat :=
  if c.isDigit then some (c.toNat - 48)
  else if 97 ≤ c.toNat && c.toNat ≤ 102 then some (c.toNat - 87)
  else if 65 ≤ c.toNat && c.toNat ≤ 70 then some (c.toNat - 55)
  else none

/-- Single-character JSON string escapes. -/
def escChar (c : Char) : Option Char :=
  if c = '"' then some '"'
  else if c = '\\' then some '\\'
  else if c = '/' then some '/'
  else if c = 'b' then some '\x08'
  else if c = 'f' then some '\x0c'
  else if c = 'n' then some '\n'
  else if c = 'r' then some '\r'
  else if c = 't' then some '\t'
  else none

/-- Parse the body of a JSON string (the opening quote already consumed),
returning the decoded characters and the remaining input.  Mirrors strict
`json.loads`: unescaped control characters are rejected; `\uXXXX` escapes
decode a single code point (surrogate-pair recombination is not modelled). -/
def pStrBody : List Char → Option (List Char × List Char)
  | [] => none
  | c :: rest =>
    if c = '"' then some ([], rest)
    else if c = '\\' then
      match rest with
      | [] => none
      | e :: rest2 =>
        if e = 'u' then
          match rest2 with
          | a :: b :: c3 :: d :: rest3 =>
            match hexDigitVal a, hexDigitVal b, hexDigitVal c3, hexDigitVal d with
            | some x, some y, some z, some w =>
              (pStrBody rest3).map
                (fun p => (Char.ofNat (((x * 16 + y) * 16 + z) * 16 + w) :: p.1, p.2))
            | _, _, _, _ => none
          | _ => none
        else
          match escChar e with
          | some ec => (pStrBody rest2).map (fun p => (ec :: p.1, p.2))
          | none => none
    else if c.toNat < 32 then none
    else (pStrBody rest).map (fun p => (c :: p.1, p.2))

/-- Parse a fixed literal suffix (used for `true`, `false`, `null`). -/
def pLit (lit : List Char) (v : Json) (cs : List Char) : Option (Json × List Char) :=
  if lit.isPrefixOf cs then some (v, cs.drop lit.length) else none

/-- Characters that can occur in a JSON number token. -/
def numChar (c : Char) : Bool :=
  c.isDigit || (c == '-') || (c == '+') || (c == '.') || (c == 'e') || (c == 'E')

/-- Consume one-or-more digits, returning the rest. -/
def digitsThenRest : List Char → Option (List Char)
  | c :: rest => if c.isDigit then some (rest.dropWhile Char.isDigit) else none
  | [] => none

/-- Consume the integer part of a JSON number (`0` or a nonzero-led digit run). -/
def numIntRest : List Char → Option (List Char)
  | c :: rest =>
    if c = '0' then some rest
    else if c.isDigit then some (rest.dropWhile Char.isDigit)
    else none
  | [] => none

/-- Consume an optional fractional part. -/
def numFracRest (cs : List Char) : Option (List Char) :=
  match cs with
  | c :: rest => if c = '.' then digitsThenRest rest else some cs
  | [] => some cs

/-- Consume an optional exponent part. -/
def numExpRest (cs : List Char) : Option (List Char) :=
  match cs with
  | c :: rest =>
    if c = 'e' || c = 'E' then
      match rest with
      | c2 :: rest2 =>
        if c2 = '+' || c2 = '-' then digitsThenRest rest2 else digitsThenRest rest
      | [] => none
    else some cs
  | [] => some cs

/-- Whether a maximal run of number characters is a valid JSON number token
(`-?(0|[1-9][0-9]*)(\.[0-9]+)?([eE][+-]?[0-9]+)?`). -/
def validNumToken (cs : List Char) : Bool :=
  let cs1 := match cs with
    | c :: r => if c = '-' then r else cs
    | [] => cs
  match numIntRest cs1 with
  | none => false
  | some r1 =>
    match numFracRest r1 with
    | none => false
    | some r2 =>
      match numExpRest r2 with
      | none => false
      | some r3 => r3.isEmpty

/-- Python-dict assignment `m[k] = v`: replace in place if the key exists,
otherwise append. -/
def dictAssign (m : List (String × Json)) (k : String) (v : Json) : List (String × Json) :=
  if m.any (fun p => p.1 == k) then m.map (fun p => if p.1 == k then (k, v) else p)
  else m ++ [(k, v)]

/-- Build a Python dict from parsed members in order (later duplicate keys
overwrite earlier ones in place, as in `json.loads`). -/
def dictOfPairs (l : List (String × Json)) : List (String × Json) :=
  l.foldl (fun m p => dictAssign m p.1 p.2) []

mutual

/-- Parse one JSON value after skipping leading whitespace.  Fuel-indexed
recursive descent over the grammar accepted by `json.loads` (the nonstandard
`NaN`/`Infinity` extension is not modelled). -/
def pVal : Nat → List Char → Option (Json × List Char)
  | 0, _ => none
  | fuel + 1, cs =>
    match skipWs cs with
    | [] => none
    | c :: r =>
      if c = lbraceChar then
        match skipWs r with
        | c2 :: r2 =>
          if c2 = rbraceChar then some (.obj [], r2)
          else (pMembers fuel (c2 :: r2)).map (fun p => (.obj (dictOfPairs p.1), p.2))
        | [] => none
      else if c = '[' then
        match skipWs r with
        | c2 :: r2 =>
          if c2 = ']' then some (.arr [], r2)
          else (pElems fuel (c2 :: r2)).map (fun p => (.arr p.1, p.2))
        | [] => none
      else if c = '"' then
        (pStrBody r).map (fun p => (.str (String.mk p.1), p.2))
      else if c = 't' then pLit ['r', 'u', 'e'] (.bool true) r
      else if c = 'f' then pLit ['a', 'l', 's', 'e'] (.bool false) r
      else if c = 'n' then pLit ['u', 'l', 'l'] .null r
      else
        let tok := (c :: r).takeWhile numChar
        if tok.isEmpty then none
        else if validNumToken tok then some (.num (String.mk tok), (c :: r).dropWhile numChar)
        else none

/-- Parse one-or-more `"key": value` members of a JSON object, positioned at
the first key, returning the members and the input after the closing brace. -/
def pMembers : Nat → List Char → Option (List (String × Json) × List Char)
  | 0, _ => none
  | fuel + 1, cs =>
    match cs with
    | c :: r =>
      if c = '"' then
        match pStrBody r with
        | none => none
        | some (k, r2) =>
          match skipWs r2 with
          | c2 :: r3 =>
            if c2 = ':' then
              match pVal fuel r3 with
              | none => none
              | some (v, r4) =>
                match skipWs r4 with
                | c3 :: r5 =>
                  if c3 = ',' then
                    (pMembers fuel (skipWs r5)).map
                      (fun p => ((String.mk k, v) :: p.1, p.2))
                  else if c3 = rbraceChar then some ([(String.mk k, v)], r5)
                  else none
                | [] => none
            else none
          | [] => none
      else none
    | [] => none

/-- Parse one-or-more array elements, returning them and the input after the
closing bracket. -/
def pElems : Nat → List Char → Option (List Json × List Char)
  | 0, _ => none
  | fuel + 1, cs =>
    match pVal fuel cs with
    | none => none
    | some (v, r) =>
      match skipWs r with
      | c :: r2 =>
        if c = ',' then (pElems fuel r2).map (fun p => (v :: p.1, p.2))
        else if c = ']' then some ([v], r2)
        else none
      | [] => none

end

/-- Embedding of `json.loads` on a character list: parse one value and require
that only whitespace remains.  The fuel bound is generous: every unit of fuel
spent strictly precedes consuming at least one character, except the handoff
from an opening brace or bracket to its member parse, so `2 * length + 2`
never exhausts on inputs `json.loads` would accept. -/
def parseJsonL (cs : List Char) : Option Json :=
  match pVal (2 * cs.length + 2) cs with
  | some (v, rest) => if (skipWs rest).isEmpty then some v else none
  | none => none

/-- Embedding of `json.loads` on strings. -/
def parseJson (s : String) : Option Json := parseJsonL s.toList

/-- The span matched by `re.search(r"\x7b.*\x7d", content, re.DOTALL)`:
from the first opening brace through the last closing brace, provided a
closing brace occurs after the first opening brace (app.py:61). -/
def regexSpanList (cs : List Char) : Option (List Char) :=
  if (((cs.dropWhile (fun c => !(c == lbraceChar))).reverse.dropWhile
      (fun c => !(c == rbraceChar))).reverse).isEmpty then none
  else some ((cs.dropWhile (fun c => !(c == lbraceChar))).reverse.dropWhile
      (fun c => !(c == rbraceChar))).reverse

/-- Whether the character list has an opening brace followed (strictly later)
by a closing brace, i.e. whether the DOTALL brace regex can match. -/
def hasBracePair (cs : List Char) : Bool :=
  (cs.dropWhile (fun c => !(c == lbraceChar))).any (fun c => c == rbraceChar)

/-- Embedding of `_extract_json_object` (app.py:52-71): strip, try a strict
parse and return the value only if it is an object, otherwise re-parse the
greedy first-brace-to-last-brace span; return `none` when neither attempt
yields an object. -/
def extractJsonObjectL (cs0 : List Char) : Option (List (String × Json)) :=
  match parseJsonL (stripList cs0) with
  | some (.obj m) => some m
  | _ =>
    match regexSpanList (stripList cs0) with
    | none => none
    | some sub =>
      match parseJsonL sub with
      | some (.obj m) => some m
      | _ => none

/-- Embedding of `_extract_json_object` on strings. -/
def extractJsonObject (content : String) : Option (List (String × Json)) :=
  extractJsonObjectL content.toList

/-- Python `dict.get(k, default)` on a dict value. -/
def jObjGetD (m : List (String × Json)) (k : String) (d : Json) : Json :=
  match m.find? (fun p => p.1 == k) with
  | some p => p.2
  | none => d

/-- Python `dict.get(k)` (defaulting to `None`) as an `Option`. -/
def jObjGet (m : List (String × Json)) (k : String) : Option Json :=
  (m.find? (fun p => p.1 == k)).map (fun p => p.2)

/-- Whether the digits of a JSON number token are all zero (so the number is
falsy in Python). -/
def numTokenIsZero (t : String) : Bool :=
  (t.toList.takeWhile (fun c => !(c == 'e') && !(c == 'E'))).all
    (fun c => (c == '0') || (c == '.') || (c == '-') || (c == '+'))

/-- Python truthiness `bool(x)` of a `json.loads` value. -/
def pyBool : Json → Bool
  | .null => false
  | .bool b => b
  | .num t => !numTokenIsZero t
  | .str s => !(s == "")
  | .arr l => !l.isEmpty
  | .obj m => !m.isEmpty

/-- String form of a JSON number token under Python `str()`.  Integer tokens
print as themselves (JSON forbids leading zeros; `-0` prints as `0`); the
repr of float tokens is approximated by the literal token. -/
def pyNumStr (t : String) : String := if t = "-0" then "0" else t

/-- A single quote character, by code point. -/
def squoteChar : Char := '\x27'

/-- Escape a character for Python string repr (approximation: backslash,
single quote and the common control characters). -/
def pyReprEscape (c : Char) : List Char :=
  if c = '\\' then ['\\', '\\']
  else if c = squoteChar then ['\\', squoteChar]
  else if c = '\n' then ['\\', 'n']
  else if c = '\r' then ['\\', 'r']
  else if c = '\t' then ['\\', 't']
  else [c]

/-- Python `repr()` of a string (approximation: always single-quoted). -/
def pyReprStr (s : String) : String :=
  String.mk (squoteChar :: (s.toList.flatMap pyReprEscape) ++ [squoteChar])

/-- Comma-join as Python does when printing containers. -/
def joinCommaSpace (l : List String) : String := String.intercalate ", " l

mutual

/-- Python `repr()` of a `json.loads` value (strings quoted). -/
def pyRepr : Json → String
  | .null => "None"
  | .bool true => "True"
  | .bool false => "False"
  | .num t => pyNumStr t
  | .str s => pyReprStr s
  | .arr l => "[" ++ joinCommaSpace (pyReprList l) ++ "]"
  | .obj m => String.mk [lbraceChar] ++ joinCommaSpace (pyReprPairs m) ++ String.mk [rbraceChar]

def pyReprList : List Json → List String
  | [] => []
  | j :: r => pyRepr j :: pyReprList r

def pyReprPairs : List (String × Json) → List String
  | [] => []
  | (k, v) :: r => (pyReprStr k ++ ": " ++ pyRepr v) :: pyReprPairs r

end

/-- Python `str()` of a `json.loads` value: strings pass through unquoted,
containers print their repr. -/
def pyStr : Json → String
  | .str s => s
  | v => pyRepr v

/-- Python iteration `for x in v` over a `json.loads` value: lists yield their
elements, strings their characters (as one-character strings), dicts their
keys; `None`, booleans and numbers raise `TypeError` (modelled as `none`). -/
def pyIterElems : Json → Option (List Json)
  | .arr l => some l
  | .str s => some (s.toList.map (fun c => Json.str (String.mk [c])))
  | .obj m => some (m.map (fun p => Json.str p.1))
  | _ => none

/-- The normalized assistant turn (the four keys of the dict built by
`_normalize_model_output`, app.py:74-89). -/
structure AssistantTurn where
  assistant_message : String
  next_choices : List String
  requested_form : Json
  final : Bool
deriving DecidableEq

/-- Embedding of `_normalize_model_output` (app.py:74-89).  The failure
branch (extraction returned nothing, or a falsy — i.e. empty — dict) returns
the raw text verbatim with no affordances; the success branch coerces each
field with a default.  The `.error` result models the `TypeError` Python
raises when `next_choices` is present but not iterable. -/
def normalizeModelOutput (raw_content : String) : Except Unit AssistantTurn :=
  match extractJsonObject raw_content with
  | none => .ok ⟨raw_content, [], Json.null, false⟩
  | some parsed =>
    if parsed.isEmpty then .ok ⟨raw_content, [], Json.null, false⟩
    else
      match pyIterElems (jObjGetD parsed "next_choices" (Json.arr [])) with
      | none => .error ()
      | some elems =>
        .ok ⟨pyStr (jObjGetD parsed "assistant_message" (Json.str "")),
             ((elems.filter (fun x => !(pyStrip (pyStr x) == ""))).map pyStr),
             jObjGetD parsed "requested_form" Json.null,
             pyBool (jObjGetD parsed "final" (Json.bool false))⟩

instance {ε α : Type} [DecidableEq ε] [DecidableEq α] : DecidableEq (Except ε α) := fun x y =>
  match x, y with
  | .ok a, .ok b =>
    if h : a = b then isTrue (by rw [h]) else isFalse (by intro hc; cases hc; exact h rfl)
  | .error a, .error b =>
    if h : a = b then isTrue (by rw [h]) else isFalse (by intro hc; cases hc; exact h rfl)
  | .ok _, .error _ => isFalse (fun h => Except.noConfusion h)
  | .error _, .ok _ => isFalse (fun h => Except.noConfusion h)

/-- One chat history entry (`\x7brole, content\x7d` dicts in app.py). -/
structure ChatMessage where
  role : String
  content : String
deriving DecidableEq

/-- The Streamlit session state the conversation state machine mutates
(app.py:124-139): history, pending choices, pending form, completion flag and
terms acceptance.  `pending_form` is whatever Json value `requested_form`
passed through (`Json.null` models Python `None`). -/
structure ConvState where
  chat_history : List ChatMessage
  pending_choices : List String
  pending_form : Json
  conversation_done : Bool
  accepted_terms : Bool
deriving DecidableEq

/-- The fixed fallback bubble text (app.py:224). -/
def fallbackMessage : String := "I can help you continue with structured choices."

/-- The assistant-bubble content appended for a normalized turn:
`result["assistant_message"].strip() or fallback` (app.py:224). -/
def assistantContent (t : AssistantTurn) : String :=
  if pyStrip t.assistant_message = "" then fallbackMessage else pyStrip t.assistant_message

/-- Embedding of `_trigger_assistant_turn` (app.py:214-228).  The `call`
argument models the entire model call up to and including normalization
pitfalls: `.error` stands for a transport/HTTP/shape exception raised inside
`_call_chat_completion` before `_normalize_model_output` runs, and a
`TypeError` from normalization itself also yields `.error`.  All session
mutations happen only after a fully successful call. -/
def triggerAssistantTurn (s : ConvState) (call : Except Unit String) : Except Unit ConvState :=
  match call with
  | .error e => .error e
  | .ok raw =>
    match normalizeModelOutput raw with
    | .error e => .error e
    | .ok result =>
      .ok { s with
            chat_history := s.chat_history ++ [⟨"assistant", assistantContent result⟩],
            pending_choices := result.next_choices,
            pending_form := result.requested_form,
            conversation_done := result.final }

/-- A user history entry. -/
def userMessage (content : String) : ChatMessage := ⟨"user", content⟩

/-- Shared shape of the three selection handlers (app.py:323-329, 333-339,
343-350): append the user entry, then try the assistant turn inside
`try/except` — on any exception the state is left as it was after the
append. -/
def handleUserAction (s : ConvState) (content : String) (call : Except Unit String) : ConvState :=
  let s1 := { s with chat_history := s.chat_history ++ [userMessage content] }
  match triggerAssistantTurn s1 call with
  | .ok s2 => s2
  | .error _ => s1

/-- Starter-pill selection handler (app.py:322-329). -/
def starterPillHandler (s : ConvState) (starter : String) (call : Except Unit String) : ConvState :=
  handleUserAction s starter call

/-- Choice-pill selection handler (app.py:332-339). -/
def choicePillHandler (s : ConvState) (choice : String) (call : Except Unit String) : ConvState :=
  handleUserAction s choice call

/-- Serialize a character of a JSON string for `json.dumps` (default flags
plus `ensure_ascii=False`). -/
def jsonDumpEscape (c : Char) : List Char :=
  if c = '"' then ['\\', '"']
  else if c = '\\' then ['\\', '\\']
  else if c = '\n' then ['\\', 'n']
  else if c = '\r' then ['\\', 'r']
  else if c = '\t' then ['\\', 't']
  else [c]

/-- Serialize a string literal for `json.dumps`. -/
def jsonDumpStr (s : String) : String :=
  String.mk ('"' :: (s.toList.flatMap jsonDumpEscape) ++ ['"'])

mutual

/-- Embedding of `json.dumps(..., ensure_ascii=False)` with default
separators, used to encode a form submission (app.py:344). -/
def jsonDumps : Json → String
  | .null => "null"
  | .bool true => "true"
  | .bool false => "false"
  | .num t => t
  | .str s => jsonDumpStr s
  | .arr l => "[" ++ joinCommaSpace (jsonDumpsList l) ++ "]"
  | .obj m => String.mk [lbraceChar] ++ joinCommaSpace (jsonDumpsPairs m) ++ String.mk [rbraceChar]

def jsonDumpsList : List Json → List String
  | [] => []
  | j :: r => jsonDumps j :: jsonDumpsList r

def jsonDumpsPairs : List (String × Json) → List String
  | [] => []
  | (k, v) :: r => (jsonDumpStr k ++ ": " ++ jsonDumps v) :: jsonDumpsPairs r

end

/-- Form submission handler (app.py:342-350): the submitted values are
encoded as a tagged synthetic user turn. -/
def formSubmitHandler (s : ConvState) (values : List (String × Json))
    (call : Except Unit String) : ConvState :=
  handleUserAction s ("FORM_SUBMISSION: " ++ jsonDumps (Json.obj values)) call

/-- Python `dict.get` on a field dict, i.e. `field.get(k)` (app.py uses raw
`.get` without a default at lines 205-206). -/
def jGet (f : Json) (k : String) : Option Json :=
  match f with
  | .obj m => jObjGet m k
  | _ => none

/-- Python `field.get(k, d)` on a field dict. -/
def jGetD (f : Json) (k : String) (d : Json) : Json :=
  match f with
  | .obj m => jObjGetD m k d
  | _ => d

/-- Lower one ASCII character. -/
def asciiLowerChar (c : Char) : Char :=
  if 65 ≤ c.toNat && c.toNat ≤ 90 then Char.ofNat (c.toNat + 32) else c

/-- ASCII lowering of a string (Python `str.lower` restricted to ASCII, which
covers every recognised field type). -/
def asciiLower (s : String) : String := String.mk (s.toList.map asciiLowerChar)

/-- The processed widget key of a field: `str(field.get("key", "")).strip()`
(app.py:157). -/
def fieldKey (f : Json) : String := pyStrip (pyStr (jGetD f "key" (Json.str "")))

/-- The processed type tag of a field:
`str(field.get("type", "short_text")).lower()` (app.py:162). -/
def fieldType (f : Json) : String := asciiLower (pyStr (jGetD f "type" (Json.str "short_text")))

/-- The six recognised field types (app.py:166-190). -/
def knownFieldTypes : List String :=
  ["short_text", "number", "select", "multiselect", "boolean", "date"]

/-- Whether the widget loop stores a value for this field: nonempty processed
key and a recognised type (fields failing either are skipped, app.py:158-159
and 191-193). -/
def fieldUsable (f : Json) : Bool :=
  !(fieldKey f == "") && knownFieldTypes.contains (fieldType f)

/-- Whether the widget loop of `_render_form` passes this field without
raising: a non-dict field raises `AttributeError` on `.get` (app.py:157);
a `select`/`multiselect` field whose `options` value is not iterable raises
`TypeError` in the list comprehension (app.py:182/185); every other field —
including empty-key fields (skipped before any widget) and unknown-type
fields (warned and skipped) — is walked without an app-level exception.
Exceptions raised inside the Streamlit widget functions themselves are
outside the embedding, as widget behaviour is an oracle. -/
def fieldRenderOk (g : Json) : Bool :=
  match g with
  | .obj _ =>
    if fieldKey g = "" then true
    else if fieldType g = "select" || fieldType g = "multiselect" then
      (pyIterElems (jGetD g "options" (Json.arr []))).isSome
    else true
  | _ => false

/-- Whether `_render_form` reaches its submit button, i.e. actually renders
an interactable form: the bail-out at app.py:148-150 returns `None` with no
widgets when the form value is not a dict or its `fields` value is falsy, a
truthy non-list `fields` value crashes during iteration before the submit
button, and a fields list containing a crashing field (see `fieldRenderOk`)
also aborts the run before the submit button at app.py:198. -/
def formRendersWidgets (f : Json) : Bool :=
  match f with
  | .obj _ =>
    match jGetD f "fields" (Json.arr []) with
    | .arr fields => !fields.isEmpty && fields.all fieldRenderOk
    | _ => false
  | _ => false

/-- The three interactive affordances the main page can render. -/
inductive Affordance where
  | starterPills : Affordance
  | choicePills : Affordance
  | form : Affordance
deriving DecidableEq

/-- The affordances rendered (and interactable) on one script run, in page
order.  Mirrors the three independent `if` statements at app.py:321, 331 and
341: starter pills when the history holds exactly the greeting and starters
exist; choice pills when `pending_choices` is truthy and the conversation is
not done; the form when `pending_form` is truthy, the conversation is not
done, and `_render_form` actually reaches its widgets and submit button
(`formRendersWidgets`) rather than bailing out at app.py:148-150 or crashing
in the field loop. -/
def renderedAffordances (s : ConvState) (starters : List String) : List Affordance :=
  (if s.chat_history.length == 1 && !starters.isEmpty then [Affordance.starterPills] else []) ++
    (if !s.pending_choices.isEmpty && !s.conversation_done then [Affordance.choicePills] else []) ++
      (if pyBool s.pending_form && !s.conversation_done && formRendersWidgets s.pending_form
        then [Affordance.form] else [])

/-- The widget-collection loop of `_render_form` (app.py:156-196) over
`(field, widget value)` pairs: fields with an empty processed key are dropped
silently, fields with an unrecognised type are skipped with a warning, every
other field stores the value its widget returned under its processed key
(`values[key] = ...`, Python-dict assignment).  A non-dict field raises
`AttributeError` on `.get` (modelled as `.error`). -/
def collectValuesAux (acc : List (String × Json)) :
    List (Json × Json) → Except Unit (List (String × Json))
  | [] => .ok acc
  | (f, x) :: rest =>
    match f with
    | .obj _ =>
      if fieldKey f = "" then collectValuesAux acc rest
      else if knownFieldTypes.contains (fieldType f) then
        collectValuesAux (dictAssign acc (fieldKey f) x) rest
      else collectValuesAux acc rest
    | _ => .error ()

/-- Python `values.get(field.get("key"))` (app.py:205): the dict built by the
widget loop has string keys, so only a string key can hit. -/
def valuesGet (values : List (String × Json)) (k : Option Json) : Option Json :=
  match k with
  | some (.str s) => (values.find? (fun p => p.1 == s)).map (fun p => p.2)
  | _ => none

/-- Python `v in (None, "", [])` for a possibly-absent dict value: absent and
`None` both arrive as `None`. -/
def emptyEquiv : Option Json → Bool
  | none => true
  | some .null => true
  | some (.str s) => s == ""
  | some (.arr l) => l.isEmpty
  | some _ => false

/-- The label used when reporting a missing field:
`field.get("label", field.get("key"))` (app.py:206). -/
def fieldLabel (f : Json) : Json :=
  match jGet f "label" with
  | some v => v
  | none =>
    match jGet f "key" with
    | some v => v
    | none => Json.null

/-- The missing-required scan of `_render_form` (app.py:203-206): a field
counts as missing when its raw `required` value is truthy and the lookup of
its raw (unprocessed) `key` value in the collected dict is empty-equivalent;
the enumerated labels keep field order. -/
def missingRequiredLabels (fields : List Json) (values : List (String × Json)) : List Json :=
  (fields.filter (fun f =>
      pyBool (jGetD f "required" Json.null) && emptyEquiv (valuesGet values (jGet f "key")))).map
    fieldLabel

/-- Spec-side description of the missing-required scan, for comparison with
the code: a required field is missing exactly when the value submitted under
its processed widget key is empty-equivalent. -/
def specMissingRequiredLabels (fields : List Json) (values : List (String × Json)) : List Json :=
  (fields.filter (fun f =>
      pyBool (jGetD f "required" Json.null) &&
        emptyEquiv (valuesGet values (some (Json.str (fieldKey f)))))).map
    fieldLabel

/-- Embedding of the submit path of `_render_form` (app.py:147-211) for a
submitted form, with the widget-returned values supplied as oracle `inputs`
(one per field, in order; the `date` widget value is its string form).
Returns `.ok none` when the form renders nothing or the submission is
rejected, `.ok (some values)` when a `FormSubmission` is produced, and
`.error` when the Python code would raise (non-dict field, or a truthy
non-list `fields` value whose iteration blows up in the loop). -/
def renderFormSubmit (form : Json) (inputs : List Json) :
    Except Unit (Option (List (String × Json))) :=
  let fieldsVal : Json :=
    match form with
    | .obj _ => jGetD form "fields" (Json.arr [])
    | _ => Json.arr []
  match fieldsVal with
  | .arr fields =>
    if fields.isEmpty then .ok none
    else
      match collectValuesAux [] (fields.zip inputs) with
      | .error e => .error e
      | .ok values =>
        if (missingRequiredLabels fields values).isEmpty then .ok (some values) else .ok none
  | v => if pyBool v then .error () else .ok none

/-- A field is well formed when it is a dict whose raw `key` is a nonempty
string unchanged by stripping and whose type tag is recognised — the shape
`FieldSpec` prescribes. -/
def wellFormedField (f : Json) : Bool :=
  match jGet f "key" with
  | some (.str k) => (pyStrip k == k) && !(k == "") && knownFieldTypes.contains (fieldType f)
  | _ => false

theorem toList_mk (l : List Char) : (String.mk l).toList = l := rfl

theorem dropWhile_head_false {p : Char → Bool} {l : List Char} {c : Char} {t : List Char}
    (h : l.dropWhile p = c :: t) : p c = false := by
  have w : l.dropWhile p ≠ [] := by rw [h]; simp
  have h2 := List.head_dropWhile_not p l w
  simp [h] at h2
  exact h2

theorem dropWhile_self {p : Char → Bool} (l : List Char) :
    (l.dropWhile p).dropWhile p = l.dropWhile p := by
  cases h : l.dropWhile p with
  | nil => simp
  | cons c t =>
    have hc := dropWhile_head_false h
    simp [List.dropWhile_cons, hc]

theorem stripList_idem (l : List Char) : stripList (stripList l) = stripList l := by
  unfold stripList
  set d := l.dropWhile pyWsChar with hd
  set r := d.reverse.dropWhile pyWsChar with hr
  have step1 : r.reverse.dropWhile pyWsChar = r.reverse := by
    cases hrr : r.reverse with
    | nil => simp
    | cons c t =>
      have hrne : r ≠ [] := by
        intro hnil
        rw [hnil] at hrr
        exact List.noConfusion hrr
      have hglast : r.getLast? = d.head? := by
        have hsuff : r <:+ d.reverse := List.dropWhile_suffix pyWsChar
        obtain ⟨u, hu⟩ := hsuff
        calc r.getLast? = (u ++ r).getLast? := (List.getLast?_append_of_ne_nil u hrne).symm
          _ = d.reverse.getLast? := by rw [hu]
          _ = d.head? := List.getLast?_reverse d
      have hhead : r.reverse.head? = d.head? := by
        rw [List.head?_reverse]
        exact hglast
      have hcne : pyWsChar c = false := by
        rw [hrr] at hhead
        cases hdd : d with
        | nil =>
          rw [hdd] at hhead
          simp at hhead
        | cons c2 t2 =>
          have hlc : List.dropWhile pyWsChar l = c2 :: t2 := by rw [← hd]; exact hdd
          have hc2 : pyWsChar c2 = false := dropWhile_head_false hlc
          rw [hdd] at hhead
          simp at hhead
          rw [hhead]
          exact hc2
      simp [List.dropWhile_cons, hcne]
  rw [step1, List.reverse_reverse]
  have step2 : r.dropWhile pyWsChar = r := by
    rw [hr]
    exact dropWhile_self _
  rw [step2]

theorem pyStrip_idem (s : String) : pyStrip (pyStrip s) = pyStrip s := by
  unfold pyStrip
  rw [toList_mk, stripList_idem]

/-- C6: for every raw string on which extraction fails, `_normalize_model_output`
returns exactly the record with the raw text verbatim as `assistant_message`,
empty `next_choices`, null `requested_form` and `final = false`, so the turn is
surfaced rather than dropped and the conversation stays open with no structured
affordances. -/
theorem normalize_extraction_failure_verbatim (raw : String)
    (h : extractJsonObject raw = none) :
    normalizeModelOutput raw = .ok ⟨raw, [], Json.null, false⟩ := by
  unfold normalizeModelOutput
  rw [h]

theorem normalize_extraction_failure_verbatim_witness :
    extractJsonObject "hello there" = none ∧
      normalizeModelOutput "hello there" = .ok ⟨"hello there", [], Json.null, false⟩ :=
  ⟨by decide, normalize_extraction_failure_verbatim "hello there" (by decide)⟩

/-- C10: for every raw string whose extracted JSON object is the empty object,
`_normalize_model_output` takes the extraction-failure branch (the truthiness
test `if not parsed` is false for an empty dict), returning the raw text
verbatim with no choices, no form and `final = false`, rather than the
coerced-with-defaults record of a successful extraction. -/
theorem normalize_empty_object_failure_branch (raw : String)
    (h : extractJsonObject raw = some []) :
    normalizeModelOutput raw = .ok ⟨raw, [], Json.null, false⟩ := by
  unfold normalizeModelOutput
  rw [h]
  rfl

theorem normalize_empty_object_failure_branch_witness :
    extractJsonObject "\x7b\x7d" = some [] ∧
      normalizeModelOutput "\x7b\x7d" = .ok ⟨"\x7b\x7d", [], Json.null, false⟩ :=
  ⟨by decide, normalize_empty_object_failure_branch "\x7b\x7d" (by decide)⟩

/-- C3: for every conversation state, a failed model call (transport or HTTP
error, modelled by `.error`) in any of the three selection handlers leaves the
resulting state exactly at the pre-call state plus the already-appended user
history entry: `pending_choices`, `pending_form` and `conversation_done` keep
their pre-call values and the user entry remains present in the history. -/
theorem failed_call_preserves_pending_state (s : ConvState) (choice : String)
    (values : List (String × Json)) :
    (choicePillHandler s choice (.error ()) =
        { s with chat_history := s.chat_history ++ [userMessage choice] }) ∧
      (starterPillHandler s choice (.error ()) =
        { s with chat_history := s.chat_history ++ [userMessage choice] }) ∧
      (formSubmitHandler s values (.error ()) =
        { s with chat_history := s.chat_history ++
            [userMessage ("FORM_SUBMISSION: " ++ jsonDumps (Json.obj values))] }) ∧
      (choicePillHandler s choice (.error ())).pending_choices = s.pending_choices ∧
      (choicePillHandler s choice (.error ())).pending_form = s.pending_form ∧
      (choicePillHandler s choice (.error ())).conversation_done = s.conversation_done ∧
      userMessage choice ∈ (choicePillHandler s choice (.error ())).chat_history := by
  refine ⟨rfl, rfl, rfl, rfl, rfl, rfl, ?_⟩
  show userMessage choice ∈ s.chat_history ++ [userMessage choice]
  simp

/-- C9: after every successful assistant turn, the appended assistant bubble is
the stripped message when that is nonempty and the fixed fallback string when
the normalized message strips to empty, so the turn never appends an assistant
entry whose content is empty after trim. -/
theorem assistant_message_fallback_nonblank (s : ConvState) (raw : String)
    (t : AssistantTurn) (h : normalizeModelOutput raw = .ok t) :
    triggerAssistantTurn s (.ok raw) =
      .ok { s with
            chat_history := s.chat_history ++ [⟨"assistant", assistantContent t⟩],
            pending_choices := t.next_choices,
            pending_form := t.requested_form,
            conversation_done := t.final } ∧
      pyStrip (assistantContent t) ≠ "" ∧
      (pyStrip t.assistant_message = "" → assistantContent t = fallbackMessage) := by
  refine ⟨?_, ?_, ?_⟩
  · simp only [triggerAssistantTurn]
    rw [h]
  · unfold assistantContent
    by_cases hb : pyStrip t.assistant_message = ""
    · rw [if_pos hb]
      decide
    · rw [if_neg hb, pyStrip_idem]
      exact hb
  · intro hb
    unfold assistantContent
    rw [if_pos hb]

theorem assistant_message_fallback_nonblank_witness :
    triggerAssistantTurn ⟨[], [], Json.null, false, true⟩
        (.ok "\x7b\"assistant_message\":\"  \",\"final\":true\x7d") =
      .ok ⟨[⟨"assistant", "I can help you continue with structured choices."⟩], [],
        Json.null, true, true⟩ := by
  have h := assistant_message_fallback_nonblank ⟨[], [], Json.null, false, true⟩
    "\x7b\"assistant_message\":\"  \",\"final\":true\x7d" ⟨"  ", [], Json.null, true⟩
    (by decide)
  exact h.1.trans (by decide)

/-- C1 counterexample: on raw text `"\x7b\x7d"` extraction succeeds and returns the
(empty) JSON object, yet `_normalize_model_output` takes the failure branch —
its `assistant_message` is the raw text `"\x7b\x7d"`, not the string-coerced
`assistant_message` field (which would default to `""`). -/
theorem normalize_empty_object_not_coerced :
    extractJsonObject "\x7b\x7d" = some [] ∧
      normalizeModelOutput "\x7b\x7d" = .ok ⟨"\x7b\x7d", [], Json.null, false⟩ ∧
      pyStr (jObjGetD [] "assistant_message" (Json.str "")) = "" ∧
      "\x7b\x7d" ≠ "" := by
  refine ⟨by decide, by decide, by decide, by decide⟩

/-- C1 (amended: extraction must yield a non-empty object, and the claim's
`next_choices` clause applies when that field is an array or absent): for
every raw string on which extraction succeeds with a non-empty JSON object,
`_normalize_model_output` returns the record whose `assistant_message` is the
string-coerced `assistant_message` field defaulting to `""`, whose
`next_choices` are the string-coerced elements of the `next_choices` array
(default empty) keeping only those non-empty after trim in original order,
whose `requested_form` is passed through unchanged, and whose `final` is the
bool-coerced `final` field defaulting to `false`. -/
theorem normalize_success_nonempty_record (raw : String) (m : List (String × Json))
    (l : List Json)
    (h : extractJsonObject raw = some m) (hne : m ≠ [])
    (hl : jObjGetD m "next_choices" (Json.arr []) = Json.arr l) :
    normalizeModelOutput raw =
      .ok ⟨pyStr (jObjGetD m "assistant_message" (Json.str "")),
           (l.filter (fun x => !(pyStrip (pyStr x) == ""))).map pyStr,
           jObjGetD m "requested_form" Json.null,
           pyBool (jObjGetD m "final" (Json.bool false))⟩ := by
  have hie : m.isEmpty = false := by
    cases m with
    | nil => exact absurd rfl hne
    | cons a t => rfl
  simp only [normalizeModelOutput, h, hie, Bool.false_eq_true, if_false, hl, pyIterElems]

theorem normalize_success_nonempty_record_witness :
    normalizeModelOutput
        "Sure!\n\x7b\"assistant_message\":\"Hi\",\"next_choices\":[\"A\",\" \",\"B\"],\"requested_form\":null,\"final\":false\x7d" =
      .ok ⟨"Hi", ["A", "B"], Json.null, false⟩ := by
  have h := normalize_success_nonempty_record
    "Sure!\n\x7b\"assistant_message\":\"Hi\",\"next_choices\":[\"A\",\" \",\"B\"],\"requested_form\":null,\"final\":false\x7d"
    [("assistant_message", Json.str "Hi"),
     ("next_choices", Json.arr [Json.str "A", Json.str " ", Json.str "B"]),
     ("requested_form", Json.null), ("final", Json.bool false)]
    [Json.str "A", Json.str " ", Json.str "B"]
    (by decide) (by decide) (by decide)
  exact h.trans (by decide)

/-- C2 counterexample: `_normalize_model_output` raises (a Python `TypeError`,
modelled as `.error`) when the extracted object is non-empty and its
`next_choices` field is a non-iterable value such as the number `0` — the list
comprehension `for x in parsed.get("next_choices", [])` iterates the value. -/
theorem normalize_raises_on_non_iterable_choices :
    normalizeModelOutput "\x7b\"next_choices\": 0\x7d" = .error () := by decide

/-- C2 (amended: normalize never raises provided `next_choices`, when present
in a non-empty extracted object, is iterable — an array, string or object):
in the extraction-failure and empty-object branches it returns the verbatim
record; in the success branch with iterable `next_choices` it returns the
coerced record, with a missing field defaulting to the empty list, items
string-coerced, and empty-after-trim items excluded. -/
theorem normalize_no_raise_when_choices_iterable (raw : String) :
    ((extractJsonObject raw = none ∨ extractJsonObject raw = some []) →
        normalizeModelOutput raw = .ok ⟨raw, [], Json.null, false⟩) ∧
      (∀ m l, extractJsonObject raw = some m → m ≠ [] →
        pyIterElems (jObjGetD m "next_choices" (Json.arr [])) = some l →
        normalizeModelOutput raw =
          .ok ⟨pyStr (jObjGetD m "assistant_message" (Json.str "")),
               (l.filter (fun x => !(pyStrip (pyStr x) == ""))).map pyStr,
               jObjGetD m "requested_form" Json.null,
               pyBool (jObjGetD m "final" (Json.bool false))⟩) := by
  constructor
  · intro h
    cases h with
    | inl h => unfold normalizeModelOutput; rw [h]
    | inr h => unfold normalizeModelOutput; rw [h]; rfl
  · intro m l h hne hit
    have hie : m.isEmpty = false := by
      cases m with
      | nil => exact absurd rfl hne
      | cons a t => rfl
    simp only [normalizeModelOutput, h, hie, Bool.false_eq_true, if_false, hit]

theorem normalize_no_raise_when_choices_iterable_witness :
    normalizeModelOutput "no json here" = .ok ⟨"no json here", [], Json.null, false⟩ ∧
      normalizeModelOutput "\x7b\"a\":1\x7d" = .ok ⟨"", [], Json.null, false⟩ := by
  constructor
  · exact (normalize_no_raise_when_choices_iterable "no json here").1 (Or.inl (by decide))
  · have h := (normalize_no_raise_when_choices_iterable "\x7b\"a\":1\x7d").2
      [("a", Json.num "1")] [] (by decide) (by decide) (by decide)
    exact h.trans (by decide)

set_option maxRecDepth 8192 in
/-- C4 counterexample: the three affordance conditions are independent `if`
statements, not a priority chain — after a successful turn that returns both
choices and a form with a usable field, the next render makes both the choice
pills and the form (text input plus submit button) interactable at once,
refuting "at most one affordance is interactable". -/
theorem two_affordances_interactable :
    renderedAffordances
        (starterPillHandler ⟨[⟨"assistant", "Hi"⟩], [], Json.null, false, true⟩ "Billing help"
          (.ok "\x7b\"assistant_message\":\"m\",\"next_choices\":[\"A\"],\"requested_form\":\x7b\"title\":\"t\",\"fields\":[\x7b\"key\":\"name\",\"label\":\"Name\",\"type\":\"short_text\",\"required\":true\x7d]\x7d,\"final\":false\x7d"))
        ["Billing help"] = [Affordance.choicePills, Affordance.form] := by
  decide

/-- C4 (amended: the three affordance conditions are tested independently, so
choice pills and the form can be simultaneously interactable): starter pills
render exactly when the history length is 1 and starters exist, regardless of
pending state; choice pills exactly when `pending_choices` is non-empty and
the conversation is not done; the form exactly when `pending_form` is truthy,
the conversation is not done, and `_render_form` actually renders its widgets
and submit button (it bails out rendering nothing when the form is not a dict
or has no truthy `fields`, and aborts before the submit button when rendering
a field raises); and once done neither choice pills nor form render
regardless of their stored values. -/
theorem affordance_render_conditions (s : ConvState) (starters : List String) :
    ((renderedAffordances s starters).contains Affordance.starterPills =
        (s.chat_history.length == 1 && !starters.isEmpty)) ∧
      ((renderedAffordances s starters).contains Affordance.choicePills =
        (!s.pending_choices.isEmpty && !s.conversation_done)) ∧
      ((renderedAffordances s starters).contains Affordance.form =
        (pyBool s.pending_form && !s.conversation_done &&
          formRendersWidgets s.pending_form)) ∧
      ((renderedAffordances { s with conversation_done := true } starters).contains
          Affordance.choicePills = false) ∧
      ((renderedAffordances { s with conversation_done := true } starters).contains
          Affordance.form = false) := by
  cases h1 : (s.chat_history.length == 1 && !starters.isEmpty) <;>
    cases h2 : (!s.pending_choices.isEmpty && !s.conversation_done) <;>
      cases h3 : (pyBool s.pending_form && !s.conversation_done &&
          formRendersWidgets s.pending_form) <;>
        simp_all [renderedAffordances, List.contains]

theorem jObjGetD_of_jObjGet {m : List (String × Json)} {k : String} {v : Json} (d : Json)
    (h : jObjGet m k = some v) : jObjGetD m k d = v := by
  unfold jObjGet at h
  unfold jObjGetD
  cases hf : m.find? (fun p => p.1 == k) with
  | none => rw [hf] at h; simp at h
  | some p =>
    rw [hf] at h
    simp at h
    exact h

theorem wellFormed_parts {f : Json} (h : wellFormedField f = true) :
    jGet f "key" = some (Json.str (fieldKey f)) ∧ fieldKey f ≠ "" ∧
      knownFieldTypes.contains (fieldType f) = true ∧ (∃ m, f = Json.obj m) := by
  have hobj : ∃ m2, f = Json.obj m2 := by
    cases f with
    | obj m => exact ⟨m, rfl⟩
    | null => exact absurd h (by simp [wellFormedField, jGet])
    | bool b => exact absurd h (by simp [wellFormedField, jGet])
    | num t => exact absurd h (by simp [wellFormedField, jGet])
    | str s => exact absurd h (by simp [wellFormedField, jGet])
    | arr l => exact absurd h (by simp [wellFormedField, jGet])
  obtain ⟨m, rfl⟩ := hobj
  unfold wellFormedField at h
  cases hk : jGet (Json.obj m) "key" with
  | none => rw [hk] at h; simp at h
  | some v =>
    rw [hk] at h
    cases v with
    | null => simp at h
    | bool b => simp at h
    | num t => simp at h
    | arr l => simp at h
    | obj m2 => simp at h
    | str k =>
      have h1 : ((pyStrip k == k) && (!(k == "")) &&
          knownFieldTypes.contains (fieldType (Json.obj m))) = true := h
      have h2 : (pyStrip k == k) = true ∧ (!(k == "")) = true ∧
          knownFieldTypes.contains (fieldType (Json.obj m)) = true := by
        simpa [Bool.and_eq_true, and_assoc] using h1
      obtain ⟨hstrip, hkne, htype⟩ := h2
      have hstrip2 : pyStrip k = k := eq_of_beq hstrip
      have hkne2 : k ≠ "" := by
        intro hc
        rw [hc] at hkne
        simp at hkne
      have hk2 : jObjGet m "key" = some (Json.str k) := hk
      have hfk : fieldKey (Json.obj m) = k := by
        unfold fieldKey
        show pyStrip (pyStr (jObjGetD m "key" (Json.str ""))) = k
        rw [jObjGetD_of_jObjGet (Json.str "") hk2]
        exact hstrip2
      refine ⟨?_, ?_, htype, ⟨m, rfl⟩⟩
      · rw [hfk]
      · rw [hfk]; exact hkne2

/-- C7 counterexample: a required `short_text` field whose raw key `" n "`
needs trimming is stored under the processed key `"n"` but looked up by its
raw key at submit time, so a submission whose value for that field is the
non-empty string `"John"` is still rejected with that field's label
enumerated — the rejection does not list exactly the labels of the fields
whose submitted value is empty-equivalent (that list is empty here). -/
theorem form_missing_labels_not_exact :
    renderFormSubmit
        (Json.obj [("fields", Json.arr [Json.obj [("key", Json.str " n "),
          ("label", Json.str "N"), ("type", Json.str "short_text"),
          ("required", Json.bool true)]])])
        [Json.str "John"] = .ok none ∧
      collectValuesAux []
          ([Json.obj [("key", Json.str " n "), ("label", Json.str "N"),
            ("type", Json.str "short_text"), ("required", Json.bool true)]].zip
            [Json.str "John"]) = .ok [("n", Json.str "John")] ∧
      missingRequiredLabels
          [Json.obj [("key", Json.str " n "), ("label", Json.str "N"),
            ("type", Json.str "short_text"), ("required", Json.bool true)]]
          [("n", Json.str "John")] = [Json.str "N"] ∧
      specMissingRequiredLabels
          [Json.obj [("key", Json.str " n "), ("label", Json.str "N"),
            ("type", Json.str "short_text"), ("required", Json.bool true)]]
          [("n", Json.str "John")] = [] := by
  decide

/-- C8 counterexample: a silently-dropped field (empty key) or a skipped field
(unknown type) that is marked required makes every submission of the rest of
the form be rejected — its raw-key lookup is always empty — so the remaining
fields can no longer be validly submitted, refuting "the rest of the form is
unaffected".  The last conjunct shows the surviving field's submitted value is
not empty-equivalent. -/
theorem dropped_required_field_blocks_submission :
    (renderFormSubmit
        (Json.obj [("fields", Json.arr [Json.obj [("key", Json.str ""),
          ("label", Json.str "Ghost"), ("required", Json.bool true)],
          Json.obj [("key", Json.str "name"), ("label", Json.str "Name"),
            ("type", Json.str "short_text"), ("required", Json.bool true)]])])
        [Json.null, Json.str "John"] = .ok none ∧
      missingRequiredLabels
          [Json.obj [("key", Json.str ""), ("label", Json.str "Ghost"),
            ("required", Json.bool true)],
            Json.obj [("key", Json.str "name"), ("label", Json.str "Name"),
              ("type", Json.str "short_text"), ("required", Json.bool true)]]
          [("name", Json.str "John")] = [Json.str "Ghost"]) ∧
      (renderFormSubmit
        (Json.obj [("fields", Json.arr [Json.obj [("key", Json.str "x"),
          ("label", Json.str "X"), ("type", Json.str "magic"),
          ("required", Json.bool true)],
          Json.obj [("key", Json.str "name"), ("label", Json.str "Name"),
            ("type", Json.str "short_text"), ("required", Json.bool true)]])])
        [Json.null, Json.str "John"] = .ok none ∧
      missingRequiredLabels
          [Json.obj [("key", Json.str "x"), ("label", Json.str "X"),
            ("type", Json.str "magic"), ("required", Json.bool true)],
            Json.obj [("key", Json.str "name"), ("label", Json.str "Name"),
              ("type", Json.str "short_text"), ("required", Json.bool true)]]
          [("name", Json.str "John")] = [Json.str "X"]) ∧
      emptyEquiv (valuesGet [("name", Json.str "John")] (some (Json.str "name"))) = false := by
  decide

theorem collectValuesAux_ok (pairs : List (Json × Json)) :
    ∀ acc, (∀ p ∈ pairs, ∃ m, p.1 = Json.obj m) →
      ∃ v, collectValuesAux acc pairs = .ok v := by
  induction pairs with
  | nil => intro acc _; exact ⟨acc, rfl⟩
  | cons q rest ih =>
    intro acc h
    obtain ⟨f, x⟩ := q
    obtain ⟨m, hm⟩ := h (f, x) (List.mem_cons_self _ _)
    simp only at hm
    subst hm
    simp only [collectValuesAux]
    by_cases hk : fieldKey (Json.obj m) = ""
    · rw [if_pos hk]
      exact ih acc (fun p hp => h p (List.mem_cons_of_mem _ hp))
    · rw [if_neg hk]
      by_cases ht : knownFieldTypes.contains (fieldType (Json.obj m)) = true
      · rw [if_pos ht]
        exact ih _ (fun p hp => h p (List.mem_cons_of_mem _ hp))
      · rw [if_neg ht]
        exact ih acc (fun p hp => h p (List.mem_cons_of_mem _ hp))

theorem collectValuesAux_filter (pairs : List (Json × Json)) :
    ∀ acc, (∀ p ∈ pairs, ∃ m, p.1 = Json.obj m) →
      collectValuesAux acc pairs =
        collectValuesAux acc (pairs.filter (fun p => fieldUsable p.1)) := by
  induction pairs with
  | nil => intro acc _; rfl
  | cons q rest ih =>
    intro acc h
    obtain ⟨f, x⟩ := q
    obtain ⟨m, hm⟩ := h (f, x) (List.mem_cons_self _ _)
    simp only at hm
    subst hm
    have hrest := fun p hp => h p (List.mem_cons_of_mem _ hp)
    by_cases hk : fieldKey (Json.obj m) = ""
    · have hu : fieldUsable (Json.obj m) = false := by
        unfold fieldUsable
        rw [hk]
        simp
      simp only [List.filter_cons, hu, if_false, Bool.false_eq_true]
      simp only [collectValuesAux, if_pos hk]
      exact ih acc hrest
    · by_cases ht : knownFieldTypes.contains (fieldType (Json.obj m)) = true
      · have hu : fieldUsable (Json.obj m) = true := by
          unfold fieldUsable
          rw [ht]
          have : (fieldKey (Json.obj m) == "") = false := by
            cases hb : (fieldKey (Json.obj m) == "")
            · rfl
            · exact absurd (eq_of_beq hb) hk
          rw [this]
          rfl
        simp only [List.filter_cons, hu, if_true]
        simp only [collectValuesAux, if_neg hk, if_pos ht]
        exact ih _ hrest
      · have hu : fieldUsable (Json.obj m) = false := by
          unfold fieldUsable
          cases hb : knownFieldTypes.contains (fieldType (Json.obj m))
          · simp
          · exact absurd hb ht
        simp only [List.filter_cons, hu, if_false, Bool.false_eq_true]
        simp only [collectValuesAux, if_neg hk, if_neg ht]
        exact ih acc hrest

theorem missingRequired_filter (fields : List Json) (values : List (String × Json))
    (h : ∀ f ∈ fields, fieldUsable f = false → pyBool (jGetD f "required" Json.null) = false) :
    missingRequiredLabels fields values =
      missingRequiredLabels (fields.filter fieldUsable) values := by
  unfold missingRequiredLabels
  congr 1
  induction fields with
  | nil => rfl
  | cons f t ih =>
    have hrest := fun g hg => h g (List.mem_cons_of_mem _ hg)
    cases hu : fieldUsable f with
    | true =>
      simp only [List.filter_cons, hu, if_true]
      by_cases hc : (pyBool (jGetD f "required" Json.null) &&
          emptyEquiv (valuesGet values (jGet f "key"))) = true
      · simp only [List.filter_cons, hc, if_true]
        rw [ih hrest]
      · have hc2 : (pyBool (jGetD f "required" Json.null) &&
            emptyEquiv (valuesGet values (jGet f "key"))) = false := by
          cases hb : (pyBool (jGetD f "required" Json.null) &&
              emptyEquiv (valuesGet values (jGet f "key")))
          · rfl
          · exact absurd hb hc
        simp only [List.filter_cons, hc2, if_false, Bool.false_eq_true]
        exact ih hrest
    | false =>
      have hreq : pyBool (jGetD f "required" Json.null) = false :=
        h f (List.mem_cons_self _ _) hu
      have hc2 : (pyBool (jGetD f "required" Json.null) &&
          emptyEquiv (valuesGet values (jGet f "key"))) = false := by
        rw [hreq]
        rfl
      simp only [List.filter_cons, hu, hc2, if_false, Bool.false_eq_true]
      exact ih hrest

theorem missingRequired_spec_eq (fields : List Json) (values : List (String × Json))
    (hwf : ∀ f ∈ fields, wellFormedField f = true) :
    missingRequiredLabels fields values = specMissingRequiredLabels fields values := by
  unfold missingRequiredLabels specMissingRequiredLabels
  congr 1
  apply List.filter_congr
  intro f hf
  have hp := wellFormed_parts (hwf f hf)
  rw [hp.1]

/-- C7 (amended: the rejection's enumerated labels coincide with the labels of
the required fields whose submitted value is empty-equivalent when every field
is well formed — a dict with a nonempty trim-stable string key and a
recognised type; in general the raw-key lookup can also count filled fields as
missing): for a well-formed, non-empty field list, the widget loop collects
values, the code's missing-required list equals the spec-side one (labels of
required fields with empty-equivalent submitted values, in field order), and
the submission produces a `FormSubmission` exactly when zero required fields
are missing, otherwise it is rejected. -/
theorem form_validation_wellformed (fields : List Json) (inputs : List Json)
    (hne : fields ≠ []) (hwf : ∀ f ∈ fields, wellFormedField f = true) :
    ∃ values, collectValuesAux [] (fields.zip inputs) = .ok values ∧
      missingRequiredLabels fields values = specMissingRequiredLabels fields values ∧
      renderFormSubmit (Json.obj [("fields", Json.arr fields)]) inputs =
        .ok (if (specMissingRequiredLabels fields values).isEmpty then some values
             else none) := by
  have hobj : ∀ p ∈ fields.zip inputs, ∃ m, p.1 = Json.obj m := by
    intro p hp
    obtain ⟨-, -, -, hm⟩ := wellFormed_parts (hwf p.1 (List.of_mem_zip hp).1)
    exact hm
  obtain ⟨values, hv⟩ := collectValuesAux_ok (fields.zip inputs) [] hobj
  have hspec := missingRequired_spec_eq fields values hwf
  refine ⟨values, hv, hspec, ?_⟩
  have hie : fields.isEmpty = false := by
    cases fields with
    | nil => exact absurd rfl hne
    | cons a t => rfl
  have hjv : jGetD (Json.obj [("fields", Json.arr fields)]) "fields" (Json.arr []) =
      Json.arr fields := rfl
  simp only [renderFormSubmit, hjv, hie, Bool.false_eq_true, if_false, hv, ← hspec]
  cases hmi : (missingRequiredLabels fields values).isEmpty <;> simp [hmi]

theorem form_validation_wellformed_witness :
    (∃ values,
        collectValuesAux []
            ([Json.obj [("key", Json.str "plan"), ("label", Json.str "Plan"),
              ("type", Json.str "select"), ("required", Json.bool true),
              ("options", Json.arr [Json.str "A", Json.str "B"])]].zip [Json.null]) =
          .ok values ∧
        missingRequiredLabels
            [Json.obj [("key", Json.str "plan"), ("label", Json.str "Plan"),
              ("type", Json.str "select"), ("required", Json.bool true),
              ("options", Json.arr [Json.str "A", Json.str "B"])]] values =
          specMissingRequiredLabels
            [Json.obj [("key", Json.str "plan"), ("label", Json.str "Plan"),
              ("type", Json.str "select"), ("required", Json.bool true),
              ("options", Json.arr [Json.str "A", Json.str "B"])]] values ∧
        renderFormSubmit
            (Json.obj [("fields", Json.arr [Json.obj [("key", Json.str "plan"),
              ("label", Json.str "Plan"), ("type", Json.str "select"),
              ("required", Json.bool true),
              ("options", Json.arr [Json.str "A", Json.str "B"])]])]) [Json.null] =
          .ok (if (specMissingRequiredLabels
              [Json.obj [("key", Json.str "plan"), ("label", Json.str "Plan"),
                ("type", Json.str "select"), ("required", Json.bool true),
                ("options", Json.arr [Json.str "A", Json.str "B"])]] values).isEmpty
            then some values else none)) ∧
      missingRequiredLabels
          [Json.obj [("key", Json.str "plan"), ("label", Json.str "Plan"),
            ("type", Json.str "select"), ("required", Json.bool true),
            ("options", Json.arr [Json.str "A", Json.str "B"])]]
          [("plan", Json.null)] = [Json.str "Plan"] ∧
      renderFormSubmit
          (Json.obj [("fields", Json.arr [Json.obj [("key", Json.str "plan"),
            ("label", Json.str "Plan"), ("type", Json.str "select"),
            ("required", Json.bool true),
            ("options", Json.arr [Json.str "A", Json.str "B"])]])]) [Json.null] =
        .ok none := by
  refine ⟨?_, by decide, by decide⟩
  exact form_validation_wellformed
    [Json.obj [("key", Json.str "plan"), ("label", Json.str "Plan"),
      ("type", Json.str "select"), ("required", Json.bool true),
      ("options", Json.arr [Json.str "A", Json.str "B"])]] [Json.null]
    (by decide) (by intro f hf; simp at hf; subst hf; decide)

/-- C8 (amended: dropped and skipped fields contribute no key to the
submission — the collected values are those of the usable fields only — and
the rest of the form is unaffected provided no dropped/skipped field is marked
required; a required dropped/skipped field is permanently counted missing, as
the counterexample shows): for dict fields, the widget loop's result is
unchanged by removing unusable fields, and when every unusable field is not
required the missing-required scan also ignores them. -/
theorem dropped_fields_contribute_no_key (fields : List Json) (inputs : List Json)
    (hobj : ∀ f ∈ fields, ∃ m, f = Json.obj m) :
    collectValuesAux [] (fields.zip inputs) =
        collectValuesAux [] ((fields.zip inputs).filter (fun p => fieldUsable p.1)) ∧
      ((∀ f ∈ fields, fieldUsable f = false → pyBool (jGetD f "required" Json.null) = false) →
        ∀ values, missingRequiredLabels fields values =
          missingRequiredLabels (fields.filter fieldUsable) values) := by
  constructor
  · exact collectValuesAux_filter (fields.zip inputs) []
      (fun p hp => hobj p.1 (List.of_mem_zip hp).1)
  · intro hreq values
    exact missingRequired_filter fields values hreq

theorem dropped_fields_contribute_no_key_witness :
    (collectValuesAux []
        ([Json.obj [("key", Json.str ""), ("label", Json.str "Ghost")],
          Json.obj [("key", Json.str "name"), ("type", Json.str "short_text"),
            ("required", Json.bool true)]].zip [Json.null, Json.str "John"]) =
      collectValuesAux []
        (([Json.obj [("key", Json.str ""), ("label", Json.str "Ghost")],
          Json.obj [("key", Json.str "name"), ("type", Json.str "short_text"),
            ("required", Json.bool true)]].zip [Json.null, Json.str "John"]).filter
          (fun p => fieldUsable p.1))) ∧
      missingRequiredLabels
          [Json.obj [("key", Json.str ""), ("label", Json.str "Ghost")],
            Json.obj [("key", Json.str "name"), ("type", Json.str "short_text"),
              ("required", Json.bool true)]] [("name", Json.str "John")] =
        missingRequiredLabels
          ([Json.obj [("key", Json.str ""), ("label", Json.str "Ghost")],
            Json.obj [("key", Json.str "name"), ("type", Json.str "short_text"),
              ("required", Json.bool true)]].filter fieldUsable)
          [("name", Json.str "John")] ∧
      renderFormSubmit
          (Json.obj [("fields", Json.arr [Json.obj [("key", Json.str ""),
            ("label", Json.str "Ghost")],
            Json.obj [("key", Json.str "name"), ("type", Json.str "short_text"),
              ("required", Json.bool true)]])]) [Json.null, Json.str "John"] =
        .ok (some [("name", Json.str "John")]) := by
  have h := dropped_fields_contribute_no_key
    [Json.obj [("key", Json.str ""), ("label", Json.str "Ghost")],
      Json.obj [("key", Json.str "name"), ("type", Json.str "short_text"),
        ("required", Json.bool true)]] [Json.null, Json.str "John"]
    (by
      intro f hf
      simp at hf
      rcases hf with rfl | rfl
      · exact ⟨_, rfl⟩
      · exact ⟨_, rfl⟩)
  exact ⟨h.1, h.2 (by decide) [("name", Json.str "John")], by decide⟩

theorem getLast?_mem_of_eq : ∀ (l : List Char) (a : Char), l.getLast? = some a → a ∈ l := by
  intro l
  induction l with
  | nil => intro a h; simp at h
  | cons c t ih =>
    intro a h
    cases t with
    | nil =>
      simp at h
      simp [h]
    | cons d t2 =>
      rw [List.getLast?_cons_cons] at h
      exact List.mem_cons_of_mem _ (ih a h)


theorem pStrBody_suffix : ∀ cs s rest, pStrBody cs = some (s, rest) → rest <:+ cs := by
  intro cs
  induction cs using pStrBody.induct with
  | case1 =>
    intro s rest h
    exact absurd h (by simp [pStrBody])
  | case2 rest2 =>
    intro s rest h
    rw [pStrBody.eq_def] at h
    simp at h
    rw [← h.2]
    exact List.suffix_cons _ _
  | case3 hne =>
    intro s rest h
    rw [pStrBody.eq_def] at h
    simp at h
  | case4 a b c3 d rest3 x y z w hd hc hb ha hne ih =>
    intro s rest h
    rw [pStrBody.eq_def] at h
    simp [ha, hb, hc, hd] at h
    obtain ⟨p1, hp, hs⟩ := h
    exact (ih _ _ hp).trans ⟨['\\', 'u', a, b, c3, d], rfl⟩
  | case5 a b c3 d rest3 hfa hne =>
    intro s rest h
    rw [pStrBody.eq_def] at h
    cases ha : hexDigitVal a <;> cases hb : hexDigitVal b <;>
      cases hc : hexDigitVal c3 <;> cases hd : hexDigitVal d <;>
        simp [ha, hb, hc, hd] at h
    exact (hfa _ _ _ _ ha hb hc hd).elim
  | case6 rest2 hfa hne =>
    intro s rest h
    rcases rest2 with _ | ⟨a, _ | ⟨b, _ | ⟨c3, _ | ⟨d, r3⟩⟩⟩⟩
    · exact absurd h (by rw [pStrBody.eq_def]; simp)
    · exact absurd h (by rw [pStrBody.eq_def]; simp)
    · exact absurd h (by rw [pStrBody.eq_def]; simp)
    · exact absurd h (by rw [pStrBody.eq_def]; simp)
    · exact (hfa a b c3 d r3 rfl).elim
  | case7 e rest2 hne ec hesc hne2 ih =>
    intro s rest h
    rw [pStrBody.eq_def] at h
    simp [hne, hesc] at h
    obtain ⟨p1, hp, hs⟩ := h
    exact (ih _ _ hp).trans ⟨['\\', e], rfl⟩
  | case8 e rest2 hne hesc hne2 =>
    intro s rest h
    rw [pStrBody.eq_def] at h
    simp [hne, hesc] at h
  | case9 e rest2 hne1 hne2 hlt =>
    intro s rest h
    rw [pStrBody.eq_def] at h
    simp [hne1, hne2, hlt] at h
  | case10 e rest2 hne1 hne2 hge ih =>
    intro s rest h
    rw [pStrBody.eq_def] at h
    simp [hne1, hne2, hge] at h
    obtain ⟨p1, hp, hs⟩ := h
    exact (ih _ _ hp).trans ⟨[e], rfl⟩

theorem pLit_suffix {lit : List Char} {v : Json} {cs : List Char} {w : Json}
    {rest : List Char} (h : pLit lit v cs = some (w, rest)) : rest <:+ cs := by
  unfold pLit at h
  split at h
  · injection h with h1
    injection h1 with h2 h3
    rw [← h3]
    exact List.drop_suffix _ _
  · exact absurd h (by simp)

theorem suffix_of_dropWhile_eq {p : Char → Bool} {l r : List Char} {c : Char}
    (h : l.dropWhile p = c :: r) : r <:+ l :=
  (List.suffix_cons c r).trans (h ▸ List.dropWhile_suffix p)

theorem cons_suffix_of_dropWhile_eq {p : Char → Bool} {l r : List Char} {c : Char}
    (h : l.dropWhile p = c :: r) : c :: r <:+ l :=
  h ▸ List.dropWhile_suffix p

theorem pAll_suffix : ∀ fuel : Nat,
    (∀ cs v rest, pVal fuel cs = some (v, rest) → rest <:+ cs) ∧
      (∀ cs m rest, pMembers fuel cs = some (m, rest) → rest <:+ cs) ∧
      (∀ cs l rest, pElems fuel cs = some (l, rest) → rest <:+ cs) := by
  intro fuel
  induction fuel with
  | zero =>
    refine ⟨?_, ?_, ?_⟩ <;> intro cs a rest h
    · exact absurd h (by rw [pVal.eq_def]; simp)
    · exact absurd h (by rw [pMembers.eq_def]; simp)
    · exact absurd h (by rw [pElems.eq_def]; simp)
  | succ n ih =>
    obtain ⟨ihV, ihM, ihE⟩ := ih
    refine ⟨?_, ?_, ?_⟩
    · -- pVal
      intro cs v rest h
      rw [pVal.eq_def] at h
      cases hsw : skipWs cs with
      | nil => simp [hsw] at h
      | cons c r =>
        have hr : r <:+ cs := suffix_of_dropWhile_eq hsw
        have hcr : c :: r <:+ cs := cons_suffix_of_dropWhile_eq hsw
        simp only [hsw] at h
        by_cases h1 : c = lbraceChar
        · rw [if_pos h1] at h
          cases hsw2 : skipWs r with
          | nil => simp [hsw2] at h
          | cons c2 r2 =>
            have hr2 : c2 :: r2 <:+ r := cons_suffix_of_dropWhile_eq hsw2
            simp only [hsw2] at h
            by_cases h2 : c2 = rbraceChar
            · rw [if_pos h2] at h
              injection h with h3
              injection h3 with h4 h5
              rw [← h5]
              exact ((List.suffix_cons c2 r2).trans hr2).trans hr
            · rw [if_neg h2] at h
              rw [Option.map_eq_some'] at h
              obtain ⟨p, hp, hpe⟩ := h
              injection hpe with h4 h5
              rw [← h5]
              exact ((ihM _ _ _ hp).trans hr2).trans hr
        · rw [if_neg h1] at h
          by_cases h2 : c = '['
          · rw [if_pos h2] at h
            cases hsw2 : skipWs r with
            | nil => simp [hsw2] at h
            | cons c2 r2 =>
              have hr2 : c2 :: r2 <:+ r := cons_suffix_of_dropWhile_eq hsw2
              simp only [hsw2] at h
              by_cases h3 : c2 = ']'
              · rw [if_pos h3] at h
                injection h with h4
                injection h4 with h5 h6
                rw [← h6]
                exact ((List.suffix_cons c2 r2).trans hr2).trans hr
              · rw [if_neg h3] at h
                rw [Option.map_eq_some'] at h
                obtain ⟨p, hp, hpe⟩ := h
                injection hpe with h4 h5
                rw [← h5]
                exact ((ihE _ _ _ hp).trans hr2).trans hr
          · rw [if_neg h2] at h
            by_cases h3 : c = '"'
            · rw [if_pos h3] at h
              rw [Option.map_eq_some'] at h
              obtain ⟨p, hp, hpe⟩ := h
              injection hpe with h4 h5
              rw [← h5]
              exact (pStrBody_suffix _ _ _ hp).trans hr
            · rw [if_neg h3] at h
              by_cases h4 : c = 't'
              · rw [if_pos h4] at h
                exact (pLit_suffix h).trans hr
              · rw [if_neg h4] at h
                by_cases h5 : c = 'f'
                · rw [if_pos h5] at h
                  exact (pLit_suffix h).trans hr
                · rw [if_neg h5] at h
                  by_cases h6 : c = 'n'
                  · rw [if_pos h6] at h
                    exact (pLit_suffix h).trans hr
                  · rw [if_neg h6] at h
                    split at h
                    · exact absurd h (by simp)
                    · split at h
                      · injection h with h7
                        injection h7 with h8 h9
                        rw [← h9]
                        exact (List.dropWhile_suffix numChar).trans hcr
                      · exact absurd h (by simp)
    · -- pMembers
      intro cs m rest h
      rw [pMembers.eq_def] at h
      cases cs with
      | nil => simp at h
      | cons c r =>
        simp only at h
        by_cases h1 : c = '"'
        · rw [if_pos h1] at h
          cases hsb : pStrBody r with
          | none => simp [hsb] at h
          | some kr =>
            obtain ⟨k, r2⟩ := kr
            have hr2 : r2 <:+ r := pStrBody_suffix _ _ _ hsb
            simp only [hsb] at h
            cases hsw2 : skipWs r2 with
            | nil => simp [hsw2] at h
            | cons c2 r3 =>
              have hr3 : r3 <:+ r2 := suffix_of_dropWhile_eq hsw2
              simp only [hsw2] at h
              by_cases h2 : c2 = ':'
              · rw [if_pos h2] at h
                cases hpv : pVal n r3 with
                | none => simp [hpv] at h
                | some vr =>
                  obtain ⟨v, r4⟩ := vr
                  have hr4 : r4 <:+ r3 := ihV _ _ _ hpv
                  simp only [hpv] at h
                  cases hsw4 : skipWs r4 with
                  | nil => simp [hsw4] at h
                  | cons c3 r5 =>
                    have hr5 : r5 <:+ r4 := suffix_of_dropWhile_eq hsw4
                    simp only [hsw4] at h
                    by_cases h3 : c3 = ','
                    · rw [if_pos h3] at h
                      rw [Option.map_eq_some'] at h
                      obtain ⟨p, hp, hpe⟩ := h
                      injection hpe with h4 h5
                      rw [← h5]
                      have hrec : p.2 <:+ skipWs r5 := ihM _ _ _ hp
                      have hsk5 : skipWs r5 <:+ r5 := List.dropWhile_suffix jsonWsChar
                      exact (((((hrec.trans hsk5).trans hr5).trans hr4).trans hr3).trans
                        hr2).trans (List.suffix_cons c r)
                    · rw [if_neg h3] at h
                      by_cases h4 : c3 = rbraceChar
                      · rw [if_pos h4] at h
                        injection h with h5
                        injection h5 with h6 h7
                        rw [← h7]
                        exact ((((hr5.trans hr4).trans hr3).trans hr2).trans
                          (List.suffix_cons c r))
                      · rw [if_neg h4] at h
                        exact absurd h (by simp)
              · rw [if_neg h2] at h
                exact absurd h (by simp)
        · rw [if_neg h1] at h
          exact absurd h (by simp)
    · -- pElems
      intro cs l rest h
      rw [pElems.eq_def] at h
      simp only at h
      cases hpv : pVal n cs with
      | none => simp [hpv] at h
      | some vr =>
        obtain ⟨v, r⟩ := vr
        have hr : r <:+ cs := ihV _ _ _ hpv
        simp only [hpv] at h
        cases hsw : skipWs r with
        | nil => simp [hsw] at h
        | cons c r2 =>
          have hr2 : r2 <:+ r := suffix_of_dropWhile_eq hsw
          simp only [hsw] at h
          by_cases h1 : c = ','
          · rw [if_pos h1] at h
            rw [Option.map_eq_some'] at h
            obtain ⟨p, hp, hpe⟩ := h
            injection hpe with h2 h3
            rw [← h3]
            exact ((ihE _ _ _ hp).trans hr2).trans hr
          · rw [if_neg h1] at h
            by_cases h2 : c = ']'
            · rw [if_pos h2] at h
              injection h with h3
              injection h3 with h4 h5
              rw [← h5]
              exact (hr2.trans hr)
            · rw [if_neg h2] at h
              exact absurd h (by simp)

theorem pMembers_close : ∀ (fuel : Nat) (cs : List Char) (m : List (String × Json))
    (rest : List Char), pMembers fuel cs = some (m, rest) →
    ∃ pre, cs = pre ++ rbraceChar :: rest := by
  intro fuel
  induction fuel with
  | zero =>
    intro cs m rest h
    exact absurd h (by rw [pMembers.eq_def]; simp)
  | succ n ih =>
    intro cs m rest h
    rw [pMembers.eq_def] at h
    cases cs with
    | nil => simp at h
    | cons c r =>
      simp only at h
      by_cases h1 : c = '"'
      · rw [if_pos h1] at h
        subst h1
        cases hsb : pStrBody r with
        | none => simp [hsb] at h
        | some kr =>
          obtain ⟨k, r2⟩ := kr
          obtain ⟨a1, ha1⟩ := pStrBody_suffix _ _ _ hsb
          simp only [hsb] at h
          cases hsw2 : skipWs r2 with
          | nil => simp [hsw2] at h
          | cons c2 r3 =>
            simp only [hsw2] at h
            by_cases h2 : c2 = ':'
            · rw [if_pos h2] at h
              subst h2
              have heq2 : r2 = r2.takeWhile jsonWsChar ++ ':' :: r3 := by
                conv_lhs => rw [← List.takeWhile_append_dropWhile jsonWsChar r2]
                rw [show r2.dropWhile jsonWsChar = ':' :: r3 from hsw2]
              cases hpv : pVal n r3 with
              | none => simp [hpv] at h
              | some vr =>
                obtain ⟨v, r4⟩ := vr
                obtain ⟨a4, ha4⟩ := (pAll_suffix n).1 _ _ _ hpv
                simp only [hpv] at h
                cases hsw4 : skipWs r4 with
                | nil => simp [hsw4] at h
                | cons c3 r5 =>
                  simp only [hsw4] at h
                  by_cases h3 : c3 = ','
                  · rw [if_pos h3] at h
                    subst h3
                    have heq4 : r4 = r4.takeWhile jsonWsChar ++ ',' :: r5 := by
                      conv_lhs => rw [← List.takeWhile_append_dropWhile jsonWsChar r4]
                      rw [show r4.dropWhile jsonWsChar = ',' :: r5 from hsw4]
                    rw [Option.map_eq_some'] at h
                    obtain ⟨p, hp, hpe⟩ := h
                    obtain ⟨p1, p2⟩ := p
                    injection hpe with h4 h5
                    subst h5
                    obtain ⟨pre2, hpre2⟩ := ih _ _ _ hp
                    have heq5 : r5 = r5.takeWhile jsonWsChar ++ skipWs r5 :=
                      (List.takeWhile_append_dropWhile jsonWsChar r5).symm
                    refine ⟨'"' :: (a1 ++ (r2.takeWhile jsonWsChar ++ (':' :: (a4 ++
                      (r4.takeWhile jsonWsChar ++ (',' :: (r5.takeWhile jsonWsChar ++
                        pre2))))))), ?_⟩
                    rw [← ha1]
                    conv_lhs => rw [heq2, ← ha4, heq4, heq5, hpre2]
                    simp [List.append_assoc]
                  · rw [if_neg h3] at h
                    by_cases h4 : c3 = rbraceChar
                    · rw [if_pos h4] at h
                      subst h4
                      injection h with h5
                      injection h5 with h6 h7
                      have heq4 : r4 = r4.takeWhile jsonWsChar ++ rbraceChar :: r5 := by
                        conv_lhs => rw [← List.takeWhile_append_dropWhile jsonWsChar r4]
                        rw [show r4.dropWhile jsonWsChar = rbraceChar :: r5 from hsw4]
                      refine ⟨'"' :: (a1 ++ (r2.takeWhile jsonWsChar ++ (':' :: (a4 ++
                        r4.takeWhile jsonWsChar)))), ?_⟩
                      rw [← ha1]
                      conv_lhs => rw [heq2, ← ha4, heq4]
                      rw [← h7]
                      simp [List.append_assoc]
                    · rw [if_neg h4] at h
                      exact absurd h (by simp)
            · rw [if_neg h2] at h
              exact absurd h (by simp)
      · rw [if_neg h1] at h
        exact absurd h (by simp)

theorem mem_takeWhile_pred {p : Char → Bool} {l : List Char} {x : Char}
    (hx : x ∈ l.takeWhile p) : p x = true := by
  induction l with
  | nil => simp at hx
  | cons c t ih =>
    rw [List.takeWhile_cons] at hx
    by_cases hc : p c = true
    · rw [if_pos hc] at hx
      cases hx with
      | head => exact hc
      | tail _ hx2 => exact ih hx2
    · rw [if_neg hc] at hx
      simp at hx

theorem pVal_obj_decomp (fuel : Nat) (cs : List Char) (m : List (String × Json))
    (rest : List Char) (h : pVal fuel cs = some (.obj m, rest)) :
    ∃ w b, cs = w ++ lbraceChar :: (b ++ rbraceChar :: rest) ∧
      ∀ x ∈ w, jsonWsChar x = true := by
  cases fuel with
  | zero => exact absurd h (by rw [pVal.eq_def]; simp)
  | succ n =>
    rw [pVal.eq_def] at h
    cases hsw : skipWs cs with
    | nil => simp [hsw] at h
    | cons c r =>
      simp only [hsw] at h
      have hcs : cs = cs.takeWhile jsonWsChar ++ c :: r := by
        conv_lhs => rw [← List.takeWhile_append_dropWhile jsonWsChar cs]
        rw [show cs.dropWhile jsonWsChar = c :: r from hsw]
      have hws : ∀ x ∈ cs.takeWhile jsonWsChar, jsonWsChar x = true :=
        fun x hx => mem_takeWhile_pred hx
      by_cases h1 : c = lbraceChar
      · subst h1
        rw [if_pos rfl] at h
        cases hsw2 : skipWs r with
        | nil => simp [hsw2] at h
        | cons c2 r2 =>
          simp only [hsw2] at h
          have hr : r = r.takeWhile jsonWsChar ++ c2 :: r2 := by
            conv_lhs => rw [← List.takeWhile_append_dropWhile jsonWsChar r]
            rw [show r.dropWhile jsonWsChar = c2 :: r2 from hsw2]
          by_cases h2 : c2 = rbraceChar
          · subst h2
            rw [if_pos rfl] at h
            injection h with h3
            injection h3 with h4 h5
            subst h5
            refine ⟨cs.takeWhile jsonWsChar, r.takeWhile jsonWsChar, ?_, hws⟩
            conv_lhs => rw [hcs, hr]
          · rw [if_neg h2] at h
            rw [Option.map_eq_some'] at h
            obtain ⟨p, hp, hpe⟩ := h
            obtain ⟨p1, p2⟩ := p
            injection hpe with h3 h5
            subst h5
            obtain ⟨pre2, hpre2⟩ := pMembers_close n _ _ _ hp
            refine ⟨cs.takeWhile jsonWsChar, r.takeWhile jsonWsChar ++ pre2, ?_, hws⟩
            conv_lhs => rw [hcs, hr, hpre2]
            simp [List.append_assoc]
      · rw [if_neg h1] at h
        by_cases h2 : c = '['
        · rw [if_pos h2] at h
          cases hsw2 : skipWs r with
          | nil => simp [hsw2] at h
          | cons c2 r2 =>
            simp only [hsw2] at h
            by_cases h3 : c2 = ']'
            · rw [if_pos h3] at h
              simp at h
            · rw [if_neg h3] at h
              simp [Option.map_eq_some'] at h
        · rw [if_neg h2] at h
          by_cases h3 : c = '"'
          · rw [if_pos h3] at h
            simp [Option.map_eq_some'] at h
          · rw [if_neg h3] at h
            by_cases h4 : c = 't'
            · rw [if_pos h4] at h
              unfold pLit at h
              split at h
              · simp at h
              · simp at h
            · rw [if_neg h4] at h
              by_cases h5 : c = 'f'
              · rw [if_pos h5] at h
                unfold pLit at h
                split at h
                · simp at h
                · simp at h
              · rw [if_neg h5] at h
                by_cases h6 : c = 'n'
                · rw [if_pos h6] at h
                  unfold pLit at h
                  split at h
                  · simp at h
                  · simp at h
                · rw [if_neg h6] at h
                  split at h
                  · simp at h
                  · split at h
                    · simp at h
                    · simp at h

theorem all_ws_of_skipWs_nil {l : List Char} (h : skipWs l = []) :
    ∀ x ∈ l, jsonWsChar x = true := by
  unfold skipWs at h
  exact fun x hx => List.dropWhile_eq_nil_iff.mp h x hx

theorem parseJsonL_obj_decomp {cs : List Char} {m : List (String × Json)}
    (h : parseJsonL cs = some (.obj m)) :
    ∃ w b t, cs = w ++ lbraceChar :: (b ++ rbraceChar :: t) ∧
      (∀ x ∈ w, jsonWsChar x = true) ∧ (∀ x ∈ t, jsonWsChar x = true) := by
  unfold parseJsonL at h
  cases hpv : pVal (2 * cs.length + 2) cs with
  | none => rw [hpv] at h; simp at h
  | some vr =>
    obtain ⟨v, rest⟩ := vr
    rw [hpv] at h
    simp only at h
    split at h
    · injection h with h2
      subst h2
      obtain ⟨w, b, hdec, hw⟩ := pVal_obj_decomp _ _ _ _ hpv
      rename_i hnil
      exact ⟨w, b, rest, hdec, hw, all_ws_of_skipWs_nil (List.isEmpty_iff.mp hnil)⟩
    · simp at h

theorem hasBracePair_of_parts : ∀ (A B C : List Char),
    hasBracePair (A ++ lbraceChar :: (B ++ rbraceChar :: C)) = true := by
  intro A B C
  induction A with
  | nil =>
    unfold hasBracePair
    rw [List.nil_append, List.dropWhile_cons_of_neg (by simp)]
    apply List.any_eq_true.mpr
    exact ⟨rbraceChar, by simp, by simp⟩
  | cons a A ih =>
    unfold hasBracePair at ih ⊢
    rw [List.cons_append, List.dropWhile_cons]
    by_cases ha : a = lbraceChar
    · rw [if_neg (by rw [ha]; simp)]
      apply List.any_eq_true.mpr
      exact ⟨rbraceChar, by simp, by simp⟩
    · rw [if_pos (by simp [ha])]
      exact ih

theorem hasBracePair_parts {l : List Char} (h : hasBracePair l = true) :
    ∃ A B C, l = A ++ lbraceChar :: (B ++ rbraceChar :: C) := by
  unfold hasBracePair at h
  have hmem : rbraceChar ∈ l.dropWhile (fun c => !(c == lbraceChar)) := by
    obtain ⟨x, hx, hbx⟩ := List.any_eq_true.mp h
    have : x = rbraceChar := eq_of_beq hbx
    rw [← this]
    exact hx
  cases htc : l.dropWhile (fun c => !(c == lbraceChar)) with
  | nil => rw [htc] at hmem; simp at hmem
  | cons c t2 =>
    have hc : (!(c == lbraceChar)) = false := dropWhile_head_false htc
    have hceq : c = lbraceChar := by
      have : (c == lbraceChar) = true := by
        cases hb : (c == lbraceChar)
        · rw [hb] at hc; simp at hc
        · rfl
      exact eq_of_beq this
    subst hceq
    have hmem2 : rbraceChar ∈ t2 := by
      rw [htc] at hmem
      cases hmem with
      | tail _ hx => exact hx
    obtain ⟨B, C, hbc⟩ := List.append_of_mem hmem2
    refine ⟨l.takeWhile (fun c => !(c == lbraceChar)), B, C, ?_⟩
    conv_lhs => rw [← List.takeWhile_append_dropWhile (fun c => !(c == lbraceChar)) l]
    rw [htc, hbc]

theorem stripList_infix (l : List Char) : ∃ u w, l = u ++ stripList l ++ w := by
  obtain ⟨u, hu⟩ := (List.dropWhile_suffix pyWsChar : List.dropWhile pyWsChar l <:+ l)
  obtain ⟨a, ha⟩ := (List.dropWhile_suffix pyWsChar :
    List.dropWhile pyWsChar (l.dropWhile pyWsChar).reverse <:+ (l.dropWhile pyWsChar).reverse)
  have hd : ((l.dropWhile pyWsChar).reverse.dropWhile pyWsChar).reverse ++ a.reverse =
      l.dropWhile pyWsChar := by
    have h2 := congrArg List.reverse ha
    simpa [List.reverse_append] using h2
  refine ⟨u, a.reverse, ?_⟩
  unfold stripList
  rw [List.append_assoc, hd, hu]

theorem regexSpanList_none_of_no_pair {cs : List Char} (h : hasBracePair cs = false) :
    regexSpanList cs = none := by
  unfold hasBracePair at h
  unfold regexSpanList
  have hall : ∀ x ∈ (cs.dropWhile (fun c => !(c == lbraceChar))).reverse,
      (!(x == rbraceChar)) = true := by
    intro x hx
    rw [List.mem_reverse] at hx
    have h2 : (x == rbraceChar) = false := by
      cases hb : (x == rbraceChar)
      · rfl
      · exact absurd (List.any_eq_true.mpr ⟨x, hx, hb⟩) (by rw [h]; simp)
    rw [h2]
    rfl
  rw [List.dropWhile_eq_nil_iff.mpr hall]
  rfl

theorem dropWhile_append_stop {p : Char → Bool} {l₂ : List Char} {c : Char} {t : List Char}
    (l₁ : List Char) (hl2 : l₂ = c :: t) (hc : p c = false) :
    (l₁ ++ l₂).dropWhile p = l₁.dropWhile p ++ l₂ := by
  subst hl2
  rw [List.dropWhile_append]
  split
  · rename_i hemp
    rw [List.dropWhile_cons_of_neg (by rw [hc]; simp)]
    rw [List.isEmpty_iff.mp hemp]
    rfl
  · rfl

theorem stripList_concat (pre mid post : List Char) (c d : Char) (mh : mid.head? = some c)
    (ml : mid.getLast? = some d) (hcw : pyWsChar c = false) (hdw : pyWsChar d = false) :
    stripList (pre ++ mid ++ post) =
      pre.dropWhile pyWsChar ++ mid ++ (post.reverse.dropWhile pyWsChar).reverse := by
  obtain ⟨mid', hmid⟩ : ∃ mid', mid = c :: mid' := by
    cases mid with
    | nil => simp at mh
    | cons c0 t0 =>
      simp at mh
      rw [mh]
      exact ⟨t0, rfl⟩
  obtain ⟨mr', hmr⟩ : ∃ mr', mid.reverse = d :: mr' := by
    have : mid.reverse.head? = some d := by rw [List.head?_reverse]; exact ml
    cases hmm : mid.reverse with
    | nil => rw [hmm] at this; simp at this
    | cons d0 t0 =>
      rw [hmm] at this
      simp at this
      rw [this]
      exact ⟨t0, rfl⟩
  unfold stripList
  have step1 : (pre ++ mid ++ post).dropWhile pyWsChar =
      pre.dropWhile pyWsChar ++ (mid ++ post) := by
    rw [List.append_assoc]
    exact dropWhile_append_stop pre (by rw [hmid]; rfl) hcw
  rw [step1]
  have step2 : (pre.dropWhile pyWsChar ++ (mid ++ post)).reverse =
      post.reverse ++ (mid.reverse ++ (pre.dropWhile pyWsChar).reverse) := by
    simp [List.reverse_append, List.append_assoc]
  rw [step2]
  have step3 : (post.reverse ++ (mid.reverse ++ (pre.dropWhile pyWsChar).reverse)).dropWhile
      pyWsChar = post.reverse.dropWhile pyWsChar ++
        (mid.reverse ++ (pre.dropWhile pyWsChar).reverse) := by
    exact dropWhile_append_stop post.reverse (by rw [hmr]; rfl) hdw
  rw [step3]
  simp [List.reverse_append, List.append_assoc]

theorem regexSpanList_embedded (pre mid post : List Char)
    (hpre : ∀ c ∈ pre, c ≠ lbraceChar ∧ c ≠ rbraceChar)
    (hpost : ∀ c ∈ post, c ≠ lbraceChar ∧ c ≠ rbraceChar) :
    regexSpanList (pre ++ (lbraceChar :: (mid ++ [rbraceChar])) ++ post) =
      some (lbraceChar :: (mid ++ [rbraceChar])) := by
  have hpre1 : ∀ a ∈ pre, (fun c => !(c == lbraceChar)) a = true := by
    intro a ha
    simp
    exact (hpre a ha).1
  have h1 : (pre ++ (lbraceChar :: (mid ++ [rbraceChar])) ++ post).dropWhile
      (fun c => !(c == lbraceChar)) = lbraceChar :: ((mid ++ [rbraceChar]) ++ post) := by
    rw [List.append_assoc, List.dropWhile_append_of_pos hpre1, List.cons_append]
    rw [List.dropWhile_cons_of_neg (by simp)]
  have h2 : (lbraceChar :: ((mid ++ [rbraceChar]) ++ post)).reverse =
      post.reverse ++ (rbraceChar :: (mid.reverse ++ [lbraceChar])) := by
    simp [List.reverse_cons, List.reverse_append, List.append_assoc]
  have hpost1 : ∀ a ∈ post.reverse, (fun c => !(c == rbraceChar)) a = true := by
    intro a ha
    rw [List.mem_reverse] at ha
    simp
    exact (hpost a ha).2
  have h3 : (post.reverse ++ (rbraceChar :: (mid.reverse ++ [lbraceChar]))).dropWhile
      (fun c => !(c == rbraceChar)) = rbraceChar :: (mid.reverse ++ [lbraceChar]) := by
    rw [List.dropWhile_append_of_pos hpost1]
    rw [List.dropWhile_cons_of_neg (by simp)]
  have h4 : (rbraceChar :: (mid.reverse ++ [lbraceChar])).reverse =
      lbraceChar :: (mid ++ [rbraceChar]) := by
    simp [List.reverse_cons, List.reverse_append]
  unfold regexSpanList
  rw [h1, h2, h3, h4]
  rfl

theorem jsonWs_imp_pyWs {c : Char} (h : jsonWsChar c = true) : pyWsChar c = true := by
  simp [jsonWsChar] at h
  rcases h with ((h | h) | h) | h <;> subst h <;> decide

theorem pyWs_false_imp_jsonWs_false {c : Char} (h : pyWsChar c = false) :
    jsonWsChar c = false := by
  cases hj : jsonWsChar c
  · rfl
  · rw [jsonWs_imp_pyWs hj] at h
    exact absurd h (by simp)

theorem parseJsonL_not_obj_of_head {h0 : Char} {X : List Char}
    (hw : pyWsChar h0 = false) (hnb : h0 ≠ lbraceChar) (m : List (String × Json)) :
    parseJsonL (h0 :: X) ≠ some (.obj m) := by
  intro hobj
  obtain ⟨w, b, t, hdec, hws, -⟩ := parseJsonL_obj_decomp hobj
  cases w with
  | nil =>
    rw [List.nil_append] at hdec
    injection hdec with h1 h2
    exact hnb h1
  | cons w0 w' =>
    rw [List.cons_append] at hdec
    injection hdec with h1 h2
    have hj := hws w0 (List.mem_cons_self _ _)
    rw [← h1] at hj
    rw [jsonWs_imp_pyWs hj] at hw
    exact absurd hw (by simp)

theorem parseJsonL_not_obj_of_last {I : List Char} {v : Char}
    (hl : I.getLast? = some v) (hw : pyWsChar v = false) (hnb : v ≠ rbraceChar)
    (m : List (String × Json)) : parseJsonL I ≠ some (.obj m) := by
  intro hobj
  obtain ⟨w, b, t, hdec, -, hts⟩ := parseJsonL_obj_decomp hobj
  have hre : I = (w ++ lbraceChar :: b) ++ (rbraceChar :: t) := by
    rw [hdec]
    simp [List.append_assoc]
  rw [hre, List.getLast?_append_of_ne_nil (w ++ lbraceChar :: b)
    (by simp : rbraceChar :: t ≠ [])] at hl
  cases t with
  | nil =>
    simp at hl
    exact hnb hl.symm
  | cons t0 t' =>
    rw [List.getLast?_cons_cons] at hl
    have hmem := getLast?_mem_of_eq _ _ hl
    have hjw := hts v hmem
    rw [jsonWs_imp_pyWs hjw] at hw
    exact absurd hw (by simp)

theorem extractJsonObjectL_eq_of_regex {cs sub : List Char} {m : List (String × Json)}
    (hno : ∀ m', parseJsonL (stripList cs) ≠ some (Json.obj m'))
    (hreg : regexSpanList (stripList cs) = some sub)
    (hsub : parseJsonL sub = some (Json.obj m)) :
    extractJsonObjectL cs = some m := by
  have hred : (match parseJsonL sub with
      | some (Json.obj m2) => some m2
      | _ => (none : Option (List (String × Json)))) = some m := by
    rw [hsub]
  unfold extractJsonObjectL
  cases hp : parseJsonL (stripList cs) with
  | none =>
    rw [hreg]
    exact hred
  | some v =>
    cases v with
    | obj m2 => exact absurd hp (hno m2)
    | null =>
      rw [hreg]
      exact hred
    | bool b =>
      rw [hreg]
      exact hred
    | num t =>
      rw [hreg]
      exact hred
    | str s =>
      rw [hreg]
      exact hred
    | arr l =>
      rw [hreg]
      exact hred

theorem extract_none_of_no_pair_aux {cs : List Char} (h : hasBracePair cs = false) :
    extractJsonObjectL cs = none := by
  have hstrip : hasBracePair (stripList cs) = false := by
    cases hb : hasBracePair (stripList cs)
    · rfl
    · obtain ⟨A, B, C, hABC⟩ := hasBracePair_parts hb
      obtain ⟨u, w, huw⟩ := stripList_infix cs
      rw [hABC] at huw
      have h2 : cs = (u ++ A) ++ lbraceChar :: (B ++ rbraceChar :: (C ++ w)) := by
        rw [huw]
        simp [List.append_assoc]
      rw [h2, hasBracePair_of_parts] at h
      exact absurd h (by simp)
  unfold extractJsonObjectL
  cases hp : parseJsonL (stripList cs) with
  | none => rw [regexSpanList_none_of_no_pair hstrip]
  | some v =>
    cases v with
    | obj m =>
      obtain ⟨w, b, t, hdec, -, -⟩ := parseJsonL_obj_decomp hp
      rw [hdec, hasBracePair_of_parts] at hstrip
      exact absurd hstrip (by simp)
    | null => rw [regexSpanList_none_of_no_pair hstrip]
    | bool b => rw [regexSpanList_none_of_no_pair hstrip]
    | num t => rw [regexSpanList_none_of_no_pair hstrip]
    | str s => rw [regexSpanList_none_of_no_pair hstrip]
    | arr l => rw [regexSpanList_none_of_no_pair hstrip]

theorem extract_embedded_aux (pre mid post : List Char) (m : List (String × Json))
    (hnb : ∀ c ∈ pre ++ post, c ≠ lbraceChar ∧ c ≠ rbraceChar)
    (hparse : parseJsonL (lbraceChar :: (mid ++ [rbraceChar])) = some (.obj m)) :
    extractJsonObjectL (pre ++ (lbraceChar :: (mid ++ [rbraceChar])) ++ post) = some m := by
  have hpre : ∀ c ∈ pre, c ≠ lbraceChar ∧ c ≠ rbraceChar :=
    fun c hc => hnb c (List.mem_append_left _ hc)
  have hpost : ∀ c ∈ post, c ≠ lbraceChar ∧ c ≠ rbraceChar :=
    fun c hc => hnb c (List.mem_append_right _ hc)
  have hlast : (lbraceChar :: (mid ++ [rbraceChar])).getLast? = some rbraceChar := by
    rw [show lbraceChar :: (mid ++ [rbraceChar]) = (lbraceChar :: mid) ++ [rbraceChar] by rfl]
    rw [List.getLast?_append_of_ne_nil (lbraceChar :: mid) (by simp)]
    rfl
  have hstripdec : stripList (pre ++ (lbraceChar :: (mid ++ [rbraceChar])) ++ post) =
      pre.dropWhile pyWsChar ++ (lbraceChar :: (mid ++ [rbraceChar])) ++
        (post.reverse.dropWhile pyWsChar).reverse :=
    stripList_concat pre (lbraceChar :: (mid ++ [rbraceChar])) post lbraceChar rbraceChar
      rfl hlast (by decide) (by decide)
  have hPmem : ∀ c ∈ pre.dropWhile pyWsChar, c ∈ pre :=
    fun c hc => (List.dropWhile_suffix pyWsChar).subset hc
  have hQmem : ∀ c ∈ (post.reverse.dropWhile pyWsChar).reverse, c ∈ post := by
    intro c hc
    rw [List.mem_reverse] at hc
    have := (List.dropWhile_suffix pyWsChar).subset hc
    rw [List.mem_reverse] at this
    exact this
  have hregex : regexSpanList (stripList (pre ++ (lbraceChar :: (mid ++ [rbraceChar])) ++ post)) =
      some (lbraceChar :: (mid ++ [rbraceChar])) := by
    rw [hstripdec]
    exact regexSpanList_embedded _ mid _
      (fun c hc => hpre c (hPmem c hc)) (fun c hc => hpost c (hQmem c hc))
  by_cases hP : pre.dropWhile pyWsChar = []
  · by_cases hQ : (post.reverse.dropWhile pyWsChar).reverse = []
    · have hstrip2 : stripList (pre ++ (lbraceChar :: (mid ++ [rbraceChar])) ++ post) =
          lbraceChar :: (mid ++ [rbraceChar]) := by
        rw [hstripdec, hP, hQ]
        simp
      unfold extractJsonObjectL
      rw [hstrip2, hparse]
    · -- some genuine text follows the object: the strict parse cannot return an object
      obtain ⟨q0, R', hR⟩ : ∃ q0 R', post.reverse.dropWhile pyWsChar = q0 :: R' := by
        cases hc : post.reverse.dropWhile pyWsChar with
        | nil => rw [hc] at hQ; simp at hQ
        | cons a b => exact ⟨a, b, rfl⟩
      have hq0w : pyWsChar q0 = false := dropWhile_head_false hR
      have hq0post : q0 ∈ post := by
        have h1 : q0 ∈ post.reverse.dropWhile pyWsChar := by rw [hR]; simp
        have h2 := (List.dropWhile_suffix pyWsChar).subset h1
        rw [List.mem_reverse] at h2
        exact h2
      have hq0nb : q0 ≠ rbraceChar := (hpost q0 hq0post).2
      have hlast2 : (stripList (pre ++ (lbraceChar :: (mid ++ [rbraceChar])) ++ post)).getLast? =
          some q0 := by
        rw [hstripdec, hP, List.nil_append]
        rw [List.getLast?_append_of_ne_nil (lbraceChar :: (mid ++ [rbraceChar]))
          (fun hc => hQ (by rw [hc]))]
        rw [List.getLast?_reverse, hR]
        rfl
      exact extractJsonObjectL_eq_of_regex
        (fun m' => parseJsonL_not_obj_of_last hlast2 hq0w hq0nb m') hregex hparse
  · -- some genuine text precedes the object: the strict parse cannot return an object
    obtain ⟨p0, P', hPc⟩ : ∃ p0 P', pre.dropWhile pyWsChar = p0 :: P' := by
      cases hc : pre.dropWhile pyWsChar with
      | nil => exact absurd hc hP
      | cons a b => exact ⟨a, b, rfl⟩
    have hp0w : pyWsChar p0 = false := dropWhile_head_false hPc
    have hp0pre : p0 ∈ pre := hPmem p0 (by rw [hPc]; simp)
    have hp0nb : p0 ≠ lbraceChar := (hpre p0 hp0pre).1
    have hhead : stripList (pre ++ (lbraceChar :: (mid ++ [rbraceChar])) ++ post) =
        p0 :: (P' ++ ((lbraceChar :: (mid ++ [rbraceChar])) ++
          (post.reverse.dropWhile pyWsChar).reverse)) := by
      rw [hstripdec, hPc]
      simp [List.append_assoc]
    have hno : ∀ m', parseJsonL
        (stripList (pre ++ (lbraceChar :: (mid ++ [rbraceChar])) ++ post)) ≠
          some (Json.obj m') := by
      intro m' hc
      rw [hhead] at hc
      exact parseJsonL_not_obj_of_head hp0w hp0nb m' hc
    exact extractJsonObjectL_eq_of_regex hno hregex hparse

theorem extract_strict_aux {cs : List Char} {m : List (String × Json)}
    (h : parseJsonL (stripList cs) = some (Json.obj m)) :
    extractJsonObjectL cs = some m := by
  unfold extractJsonObjectL
  rw [h]

/-- C5 counterexample: the raw string `"\x7b\"a\":1\x7d \x7d"` contains exactly one JSON
object embedded in surrounding prose, but the prose contains a stray closing
brace, so the greedy first-brace-to-last-brace span is `"\x7b\"a\":1\x7d \x7d"`, which is
not valid JSON — extraction returns nothing instead of recovering the
object. -/
theorem extract_misses_object_with_stray_brace :
    ("\x7b\"a\":1\x7d \x7d" : String).toList =
        [] ++ (lbraceChar :: ("\"a\":1".toList ++ [rbraceChar])) ++ " \x7d".toList ∧
      parseJsonL (lbraceChar :: ("\"a\":1".toList ++ [rbraceChar])) =
        some (Json.obj [("a", Json.num "1")]) ∧
      extractJsonObject "\x7b\"a\":1\x7d \x7d" = none := by
  decide

/-- C5 (amended: the surrounding prose must itself be brace-free): (1) for
every raw string whose stripped content parses as a JSON object, extraction
returns that parsed object unchanged; (2) for every raw string consisting of
one JSON object text surrounded by brace-free prose (embedded newlines
included — the span is DOTALL), extraction recovers exactly that object; and
(3) for every string with no opening brace followed by a closing brace,
extraction returns nothing. -/
theorem extract_roundtrip_recovery_and_no_pair :
    (∀ (raw : String) (m : List (String × Json)),
        parseJsonL (stripList raw.toList) = some (Json.obj m) →
        extractJsonObject raw = some m) ∧
      (∀ (raw : String) (pre mid post : List Char) (m : List (String × Json)),
        raw.toList = pre ++ (lbraceChar :: (mid ++ [rbraceChar])) ++ post →
        (∀ c ∈ pre ++ post, c ≠ lbraceChar ∧ c ≠ rbraceChar) →
        parseJsonL (lbraceChar :: (mid ++ [rbraceChar])) = some (Json.obj m) →
        extractJsonObject raw = some m) ∧
      (∀ raw : String, hasBracePair raw.toList = false → extractJsonObject raw = none) := by
  refine ⟨?_, ?_, ?_⟩
  · intro raw m h
    exact extract_strict_aux h
  · intro raw pre mid post m hsplit hnb hp
    unfold extractJsonObject
    rw [hsplit]
    exact extract_embedded_aux pre mid post m hnb hp
  · intro raw h
    exact extract_none_of_no_pair_aux h

theorem extract_roundtrip_recovery_and_no_pair_witness :
    extractJsonObject " \x7b\"a\": 1\x7d " = some [("a", Json.num "1")] ∧
      extractJsonObject "Sure!\n\x7b\"a\":1\x7d thanks" = some [("a", Json.num "1")] ∧
      extractJsonObject "no pairs of curly characters here" = none := by
  refine ⟨?_, ?_, ?_⟩
  · exact extract_roundtrip_recovery_and_no_pair.1 " \x7b\"a\": 1\x7d "
      [("a", Json.num "1")] (by decide)
  · exact extract_roundtrip_recovery_and_no_pair.2.1 "Sure!\n\x7b\"a\":1\x7d thanks"
      "Sure!\n".toList "\"a\":1".toList " thanks".toList [("a", Json.num "1")]
      (by decide) (by decide) (by decide)
  · exact extract_roundtrip_recovery_and_no_pair.2.2 "no pairs of curly characters here"
      (by decide)
